import Mathlib

/-!
# go-thumbhash command line tool (`cmd/thumbhash/main.go`)

A shallow embedding of the three commands of the `thumbhash` program
(`image-to-raw-data`, `encode-image`, `decode-image`) together with the
standard-library routines they rely on (`strconv.ParseInt`,
`encoding/base64`, `path/filepath.Ext`, `image.NewRGBA`, `draw.Draw`).

Go strings and byte slices are lists of bytes.  Effects (standard output,
files, calls into the codec library) are recorded as an event trace, and
`p.Fatal` ends the run.
-/

namespace Thumbhash

/-! ## Bytes and strings -/

/-- A Go `byte` (`uint8`). -/
abbrev Byte := Fin 256

/-- A Go `string` or `[]byte`: a sequence of bytes. -/
abbrev GoString := List Byte

/-- A Go `error` value, kept as its message. -/
abbrev Error := String

/-! ## `strconv.ParseInt(s, 10, 64)` -/

/-- The two kinds of `*strconv.NumError` (`ErrSyntax`, `ErrRange`). -/
inductive NumError where
  | ErrSyntax
  | ErrRange
  deriving DecidableEq, Repr

/-- `maxUint64 = 1<<64 - 1`. -/
def maxUint64 : Nat := 2 ^ 64 - 1

/-- `math.MaxInt32`. -/
def MaxInt32 : Int := 2 ^ 31 - 1

/-- `lower(c) = c | ('x' - 'X')`. -/
def lower (c : Byte) : Nat := c.val ||| 0x20

/-- The body of the `for _, c := range []byte(s)` loop of `strconv.ParseUint`
for `base = 10` and `bitSize = 64` (so `base0` is false and underscores are
not accepted).  `n` is the running `uint64` value.  The result is the pair
`(value, err)` that `ParseUint` returns. -/
def parseUintLoop : List Byte → Nat → Nat × Option NumError
  | [], n => (n, none)
  | c :: cs, n =>
    let d : Option Nat :=
      if 0x30 ≤ c.val ∧ c.val ≤ 0x39 then some (c.val - 0x30)
      else if 0x61 ≤ lower c ∧ lower c ≤ 0x7a then some ((lower c - 0x61 + 10) % 256)
      else none
    match d with
    | none => (0, some .ErrSyntax)
    | some d =>
      if d ≥ 10 then (0, some .ErrSyntax)
      -- cutoff = maxUint64/10 + 1
      else if n ≥ maxUint64 / 10 + 1 then (maxUint64, some .ErrRange)
      else
        let n10 := (n * 10) % 2 ^ 64
        let n1 := (n10 + d) % 2 ^ 64
        if n1 < n10 ∨ n1 > maxUint64 then (maxUint64, some .ErrRange)
        else parseUintLoop cs n1

/-- `strconv.ParseUint(s, 10, 64)`. -/
def ParseUint (s : GoString) : Nat × Option NumError :=
  if s = [] then (0, some .ErrSyntax) else parseUintLoop s 0

/-- `strconv.ParseInt(s, 10, 64)`: the pair `(i, err)`. -/
def ParseInt (s : GoString) : Int × Option NumError :=
  match s with
  | [] => (0, some .ErrSyntax)
  | c :: cs =>
    -- pick off leading sign
    let neg : Bool := c.val = 0x2d
    let body : GoString := if c.val = 0x2b ∨ c.val = 0x2d then cs else c :: cs
    let (un, err) := ParseUint body
    if err = some .ErrSyntax then (0, err)
    else
      let cutoff : Nat := 2 ^ 63
      if !neg ∧ un ≥ cutoff then ((cutoff : Int) - 1, some .ErrRange)
      else if neg ∧ un > cutoff then (-(cutoff : Int), some .ErrRange)
      else if neg then (-(un : Int), none) else ((un : Int), none)

/-- The two sizes of Go's `int`. -/
inductive Arch where
  | bits32
  | bits64
  deriving DecidableEq, Repr

/-- `strconv.IntSize`. -/
def Arch.intSize : Arch → Nat
  | .bits32 => 32
  | .bits64 => 64

/-- The conversion `int(i64)`: the low `intSize` bits, read as a signed value. -/
def intOfInt64 (arch : Arch) (v : Int) : Int :=
  (v + 2 ^ (arch.intSize - 1)) % 2 ^ arch.intSize - 2 ^ (arch.intSize - 1)

/-! ### What "a base-10 integer" is -/

/-- The byte is an ASCII decimal digit. -/
def isDigit (c : Byte) : Prop := 0x30 ≤ c.val ∧ c.val ≤ 0x39

instance (c : Byte) : Decidable (isDigit c) := by unfold isDigit; infer_instance

/-- The value of a digit string read in base 10, most significant digit first,
continuing from `acc`. -/
def decimalValueFrom : List Byte → Nat → Nat
  | [], acc => acc
  | c :: cs, acc => decimalValueFrom cs (acc * 10 + (c.val - 0x30))

/-- The value of a digit string read in base 10. -/
def decimalValue (ds : List Byte) : Nat := decimalValueFrom ds 0

/-- The string `s` is the base-10 numeral of the integer `n`: an optional sign
`+` or `-` followed by one or more decimal digits. -/
def IsDecimalOf (s : GoString) (n : Int) : Prop :=
  ∃ ds : List Byte, ds ≠ [] ∧ (∀ c ∈ ds, isDigit c) ∧
    ((s = ds ∧ n = decimalValue ds) ∨
     (s = (0x2b : Byte) :: ds ∧ n = decimalValue ds) ∨
     (s = (0x2d : Byte) :: ds ∧ n = -(decimalValue ds : Int)))

/-! ## `encoding/base64`, `StdEncoding` -/

/-- The alphabet of `base64.StdEncoding`:
`ABCDEFGHIJKLMNOPQRSTUVWXYZabcdefghijklmnopqrstuvwxyz0123456789+/`. -/
def encodeStd : List Byte :=
  [65, 66, 67, 68, 69, 70, 71, 72, 73, 74, 75, 76, 77, 78, 79, 80,
   81, 82, 83, 84, 85, 86, 87, 88, 89, 90, 97, 98, 99, 100, 101, 102,
   103, 104, 105, 106, 107, 108, 109, 110, 111, 112, 113, 114, 115, 116, 117, 118,
   119, 120, 121, 122, 48, 49, 50, 51, 52, 53, 54, 55, 56, 57, 43, 47]

/-- The padding character `=` (`StdPadding`). -/
def padChar : Byte := 61

/-- The entry `enc.encode[i]`. -/
def encodeChar (i : Nat) : Byte := encodeStd.getD i 0

/-- The entry `enc.decodeMap[c]`: the position of `c` in the alphabet, `0xff`
for every byte outside it. -/
def decodeMap (c : Byte) : Nat :=
  if encodeStd.indexOf c < 64 then encodeStd.indexOf c else 0xff

/-- The conversion `byte(x)` of an unsigned value: its low eight bits. -/
def toByte (x : Nat) : Byte := Fin.ofNat x

/-- `(*Encoding).Encode` for `StdEncoding`, the body of `EncodeToString`:
three source bytes give four characters, a final block of one or two bytes
is padded with `=`. -/
def EncodeToString : List Byte → GoString
  | a :: b :: c :: rest =>
    let val := a.val <<< 16 ||| b.val <<< 8 ||| c.val
    encodeChar (val >>> 18 &&& 0x3F) :: encodeChar (val >>> 12 &&& 0x3F) ::
      encodeChar (val >>> 6 &&& 0x3F) :: encodeChar (val &&& 0x3F) :: EncodeToString rest
  | [a, b] =>
    let val := a.val <<< 16 ||| b.val <<< 8
    [encodeChar (val >>> 18 &&& 0x3F), encodeChar (val >>> 12 &&& 0x3F),
      encodeChar (val >>> 6 &&& 0x3F), padChar]
  | [a] =>
    let val := a.val <<< 16
    [encodeChar (val >>> 18 &&& 0x3F), encodeChar (val >>> 12 &&& 0x3F), padChar, padChar]
  | [] => []

/-- The loop `for si < len(src) && (src[si] == '\n' || src[si] == '\r') { si++ }`. -/
def skipNewlines : GoString → GoString
  | [] => []
  | c :: cs => if c.val = 10 ∨ c.val = 13 then skipNewlines cs else c :: cs

/-- How the `for j` loop of `decodeQuantum` ends: it leaves the loop with
`dbuf` and `dlen` (and `err` set on trailing garbage), or the function returns
from inside the loop with no output. -/
inductive Collected where
  | filled (rest : GoString) (dbuf : List Nat) (dlen : Nat) (trailing : Bool)
  | returned (rest : GoString) (corrupt : Bool)

/-- The `for j := 0; j < len(dbuf); j++` loop of `decodeQuantum`, for
`StdEncoding` (padding `=`).  `src` is the unread input `src[si:]`. -/
def collect : GoString → Nat → List Nat → Collected
  | [], j, _ =>
    -- len(src) == si: fine only before the first character of a quantum
    if j = 0 then .returned [] false else .returned [] true
  | c :: cs, j, dbuf =>
    if decodeMap c ≠ 0xff then
      if j + 1 < 4 then collect cs (j + 1) (dbuf.set j (decodeMap c))
      else .filled cs (dbuf.set j (decodeMap c)) 4 false
    else if c.val = 10 ∨ c.val = 13 then collect cs j dbuf
    else if c ≠ padChar then .returned cs true
    else
      match j with
      | 0 => .returned cs true
      | 1 => .returned cs true
      | 2 =>
        -- "==" is expected, the first "=" is already consumed
        match skipNewlines cs with
        | [] => .returned [] true
        | p :: after =>
          if p ≠ padChar then .returned (p :: after) true
          else .filled (skipNewlines after) dbuf 2 (decide (skipNewlines after ≠ []))
      | j => .filled (skipNewlines cs) dbuf j (decide (skipNewlines cs ≠ []))

/-- The result of one `decodeQuantum` call: the unread input, the bytes
written to `dst`, and whether `err != nil`. -/
structure Quantum where
  rest : GoString
  out : List Byte
  err : Bool

/-- `(*Encoding).decodeQuantum` for `StdEncoding` (not strict).  The position
carried by `CorruptInputError` is not kept. -/
def decodeQuantum (src : GoString) : Quantum :=
  match collect src 0 [0, 0, 0, 0] with
  | .returned rest corrupt => ⟨rest, [], corrupt⟩
  | .filled rest dbuf dlen trailing =>
    let val := dbuf.getD 0 0 <<< 18 ||| dbuf.getD 1 0 <<< 12 ||| dbuf.getD 2 0 <<< 6 |||
      dbuf.getD 3 0
    ⟨rest, [toByte (val >>> 16), toByte (val >>> 8), toByte (val >>> 0)].take (dlen - 1),
      trailing⟩

/-- The loop `for si < len(src)` of `(*Encoding).Decode`, each round one
`decodeQuantum`; the word-at-a-time rounds before it decode the same bytes
and are not kept apart.  `none` when `fuel` rounds were not enough. -/
def decodeLoop : Nat → GoString → Option (Except Error (List Byte))
  | _, [] => some (.ok [])
  | 0, _ :: _ => none
  | fuel + 1, c :: cs =>
    let q := decodeQuantum (c :: cs)
    if q.err then some (.error "illegal base64 data")
    else
      match decodeLoop fuel q.rest with
      | none => none
      | some (.error e) => some (.error e)
      | some (.ok bytes) => some (.ok (q.out ++ bytes))

/-- `base64.StdEncoding.DecodeString`.  Every round of the loop reads at least
one byte, so `len(s)` rounds are enough (`decodeLoop_total`). -/
def DecodeString (s : GoString) : Except Error (List Byte) :=
  match decodeLoop s.length s with
  | some r => r
  | none => .error "unreachable"

/-! ## `path/filepath` -/

/-- `os.IsPathSeparator`: `/`, and on Windows also `\`. -/
def IsPathSeparator (windows : Bool) (c : Byte) : Bool :=
  c.val = 0x2f || (windows && c.val = 0x5c)

/-- The backwards scan of `filepath.Ext`: `before` holds `path[:i+1]` reversed,
`suffix` is `path[i+1:]`. -/
def extScan (windows : Bool) : List Byte → GoString → GoString
  | [], _ => []
  | c :: before, suffix =>
    if IsPathSeparator windows c then []
    else if c.val = 0x2e then c :: suffix
    else extScan windows before (c :: suffix)

/-- `filepath.Ext(path)`. -/
def Ext (windows : Bool) (path : GoString) : GoString :=
  extScan windows path.reverse []

/-- The string `".data"`. -/
def dotData : GoString := [0x2e, 0x64, 0x61, 0x74, 0x61]

/-- The part of a path after its last separator (`filepath.Base` without the
special cases): the last path element. -/
def lastElement (windows : Bool) (path : GoString) : GoString :=
  (path.reverse.takeWhile (fun c => !IsPathSeparator windows c)).reverse

/-! ## `image`, `image/color`, `image/draw` -/

/-- `image.Point`. -/
structure Point where
  X : Int
  Y : Int
  deriving DecidableEq, Repr

/-- `image.Rectangle`. -/
structure Rectangle where
  Min : Point
  Max : Point
  deriving DecidableEq, Repr

/-- `image.ZR`, the zero rectangle. -/
def ZR : Rectangle := ⟨⟨0, 0⟩, ⟨0, 0⟩⟩

/-- `Rectangle.Dx`. -/
def Rectangle.Dx (r : Rectangle) : Int := r.Max.X - r.Min.X

/-- `Rectangle.Dy`. -/
def Rectangle.Dy (r : Rectangle) : Int := r.Max.Y - r.Min.Y

/-- `Rectangle.Empty`. -/
def Rectangle.Empty (r : Rectangle) : Bool :=
  decide (r.Min.X ≥ r.Max.X) || decide (r.Min.Y ≥ r.Max.Y)

/-- `Point.Sub`. -/
def Point.Sub (p q : Point) : Point := ⟨p.X - q.X, p.Y - q.Y⟩

/-- `Rectangle.Add`: the rectangle translated by `p`. -/
def Rectangle.Add (r : Rectangle) (p : Point) : Rectangle :=
  ⟨⟨r.Min.X + p.X, r.Min.Y + p.Y⟩, ⟨r.Max.X + p.X, r.Max.Y + p.Y⟩⟩

/-- `Rectangle.Intersect`. -/
def Rectangle.Intersect (r s : Rectangle) : Rectangle :=
  let r1 : Rectangle :=
    ⟨⟨if r.Min.X < s.Min.X then s.Min.X else r.Min.X,
      if r.Min.Y < s.Min.Y then s.Min.Y else r.Min.Y⟩,
     ⟨if r.Max.X > s.Max.X then s.Max.X else r.Max.X,
      if r.Max.Y > s.Max.Y then s.Max.Y else r.Max.Y⟩⟩
  if r1.Empty then ZR else r1

/-- A `color.Color` value, by its concrete type.  `RGBA` holds
alpha-premultiplied components, `NRGBA` holds straight (non-premultiplied)
ones; `RGBA64` stands for any other colour through the four 16-bit values its
`RGBA` method returns. -/
inductive Color where
  | RGBA (R G B A : Byte)
  | NRGBA (R G B A : Byte)
  | Gray (Y : Byte)
  | RGBA64 (R G B A : Fin 65536)
  deriving DecidableEq, Repr

/-- The method `Color.RGBA()`: the alpha-premultiplied red, green, blue and
alpha of the colour, each in `[0, 0xffff]`. -/
def Color.RGBA16 : Color → Nat × Nat × Nat × Nat
  | .RGBA r g b a =>
    (r.val ||| r.val <<< 8, g.val ||| g.val <<< 8, b.val ||| b.val <<< 8, a.val ||| a.val <<< 8)
  | .NRGBA r g b a =>
    ((r.val ||| r.val <<< 8) * a.val / 0xff, (g.val ||| g.val <<< 8) * a.val / 0xff,
      (b.val ||| b.val <<< 8) * a.val / 0xff, a.val ||| a.val <<< 8)
  | .Gray y => (y.val ||| y.val <<< 8, y.val ||| y.val <<< 8, y.val ||| y.val <<< 8, 0xffff)
  | .RGBA64 r g b a => (r.val, g.val, b.val, a.val)

/-- The components `[R, G, B, A]` of `color.RGBAModel.Convert(c)`: an `RGBA`
colour is kept, any other is converted through its `RGBA` method. -/
def rgbaModel (c : Color) : List Byte :=
  match c with
  | .RGBA r g b a => [r, g, b, a]
  | c =>
    let (r, g, b, a) := c.RGBA16
    [toByte (r >>> 8), toByte (g >>> 8), toByte (b >>> 8), toByte (a >>> 8)]

/-- An `image.Image`: its `Bounds()` and its `At(x, y)`. -/
structure Image where
  Bounds : Rectangle
  At : Int → Int → Color

/-- An `*image.RGBA`: `Pix` holds the pixels in R, G, B, A order, the pixel at
`(x, y)` starting at `Pix[(y-Rect.Min.Y)*Stride + (x-Rect.Min.X)*4]`. -/
structure RGBAImage where
  Pix : List Byte
  Stride : Int
  Rect : Rectangle
  deriving DecidableEq, Repr

/-- The largest value of Go's `int`. -/
def maxInt (arch : Arch) : Int := 2 ^ (arch.intSize - 1) - 1

/-- `mul3NonNeg(x, y, z)` of package `image`: the product, or `-1` when an
argument is negative or the product overflows an `int`. -/
def mul3NonNeg (arch : Arch) (x y z : Int) : Int :=
  if x < 0 ∨ y < 0 ∨ z < 0 then -1
  else if x * y ≥ 2 ^ 64 then -1
  else if x * y * z ≥ 2 ^ 64 then -1
  else if intOfInt64 arch (x * y * z) < 0 then -1
  else intOfInt64 arch (x * y * z)

/-- `image.NewRGBA(r)`; `none` is the panic "Rectangle has huge or negative
dimensions". -/
def NewRGBA (arch : Arch) (r : Rectangle) : Option RGBAImage :=
  if mul3NonNeg arch 4 r.Dx r.Dy < 0 then none
  else some ⟨List.replicate (mul3NonNeg arch 4 r.Dx r.Dy).toNat 0, 4 * r.Dx, r⟩

/-- `(*RGBA).PixOffset`. -/
def RGBAImage.PixOffset (p : RGBAImage) (x y : Int) : Int :=
  (y - p.Rect.Min.Y) * p.Stride + (x - p.Rect.Min.X) * 4

/-- The four stores of the inner loop of `drawRGBA` for `op == Src` and no mask
(`ma == m == 1<<16 - 1`): `d[k] = uint8(s * ma / m >> 8)`. -/
def storePixel (pix : List Byte) (i : Int) (c : Color) : List Byte :=
  let m : Nat := 0xffff
  let ma : Nat := 0xffff
  let (sr, sg, sb, sa) := c.RGBA16
  (((pix.set i.toNat (toByte ((sr * ma / m) >>> 8))).set (i.toNat + 1)
    (toByte ((sg * ma / m) >>> 8))).set (i.toNat + 2)
    (toByte ((sb * ma / m) >>> 8))).set (i.toNat + 3) (toByte ((sa * ma / m) >>> 8))

/-- The inner loop of `drawRGBA`: one row of `w` pixels, the destination
index starting at `i0` and the source column at `sx0`. -/
def drawRow (src : Image) (sx0 sy : Int) (w : Nat) (i0 : Int) (pix : List Byte) : List Byte :=
  (List.range w).foldl
    (fun pix (k : Nat) => storePixel pix (i0 + 4 * (k : Int)) (src.At (sx0 + (k : Int)) sy)) pix

/-- `drawRGBA(dst, r, src, sp, nil, image.Point{}, draw.Src)` for a source other
than `dst`: rows top to bottom, pixels left to right. -/
def drawRGBA (dst : RGBAImage) (r : Rectangle) (src : Image) (sp : Point) : RGBAImage :=
  let i0 := dst.PixOffset r.Min.X r.Min.Y
  { dst with
    Pix := (List.range r.Dy.toNat).foldl
      (fun pix (j : Nat) =>
        drawRow src sp.X (sp.Y + (j : Int)) r.Dx.toNat (i0 + (j : Int) * dst.Stride) pix)
      dst.Pix }

/-- `clip` of package `draw` without a mask: the rectangle cut down to the
destination and the source, and the source point moved along. -/
def clip (dst : RGBAImage) (r : Rectangle) (src : Image) (sp : Point) : Rectangle × Point :=
  let orig := r.Min
  let r1 := r.Intersect dst.Rect
  let r2 := r1.Intersect (src.Bounds.Add (orig.Sub sp))
  (r2, ⟨sp.X + (r2.Min.X - orig.X), sp.Y + (r2.Min.Y - orig.Y)⟩)

/-- `draw.Draw(dst, r, src, sp, draw.Src)` into an `*image.RGBA`.  The special
cases of `DrawMask` for particular source types store the same bytes as
`drawRGBA`. -/
def Draw (dst : RGBAImage) (r : Rectangle) (src : Image) (sp : Point) : RGBAImage :=
  let (r1, sp1) := clip dst r src sp
  if r1.Empty then dst else drawRGBA dst r1 src sp1

/-! ## The program -/

/-- An argument of a `p.Fatal` format. -/
inductive Arg where
  | str (s : GoString)
  | err (e : Error)
  deriving DecidableEq, Repr

/-- How a command ends: it returns, `p.Fatal` prints a message and exits, or
the Go runtime panics. -/
inductive Exit where
  | returned
  | fatal (format : String) (args : List Arg)
  | panicked
  deriving DecidableEq, Repr

/-- `thumbhash.DecodingCfg`, as far as the program uses it. -/
structure DecodingCfg where
  BaseSize : Int
  deriving DecidableEq, Repr

/-- What a command does to the outside, in order. -/
inductive Event where
  /-- `image.Decode(os.Stdin)` -/
  | readStdin
  /-- `os.Open(path)` -/
  | openFile (path : GoString)
  /-- `ioutil.WriteFile(path, data, 0644)` -/
  | writeFile (path : GoString) (data : List Byte)
  /-- `os.OpenFile(path, O_CREATE|O_TRUNC|O_WRONLY, 0644)` -/
  | createTruncate (path : GoString)
  /-- `png.Encode(file, img)` -/
  | pngEncode (path : GoString) (img : Image)
  /-- `fmt.Println`: the line with its newline -/
  | stdout (line : GoString)
  /-- `thumbhash.EncodeImage(img)` -/
  | encodeImage (img : Image)
  /-- `thumbhash.DecodeImageWithCfg(hash, cfg)` -/
  | decodeImage (hash : List Byte) (cfg : DecodingCfg)

/-- One run of a command: its events and how it ended. -/
structure Run where
  events : List Event
  exit : Exit

/-- Modelled from the spec: the codec library `thumbhash` (`EncodeImage`,
`DecodeImageWithCfg`) is not part of the program's source file.  The result
types are those of the two call sites; following the spec ("a pure,
single-threaded, deterministic function pipeline") both are functions of their
arguments. -/
structure Codec where
  EncodeImage : Image → List Byte
  DecodeImageWithCfg : List Byte → DecodingCfg → Except Error Image

/-- Modelled from the spec: what the decoder does with `BaseSize` is not part
of the program's source file; "unset ⇒ fixed default", the unset value of the
Go field being 0. -/
def effectiveBaseSize (defaultSize : Int) (cfg : DecodingCfg) : Int :=
  if cfg.BaseSize = 0 then defaultSize else cfg.BaseSize

/-- The surroundings of a run: the platform, standard input and the file
system. -/
structure Env where
  arch : Arch
  windows : Bool
  /-- `os.Stdin.Stat()`: the mode bits, `none` when it fails -/
  stdinStat : Option Nat
  /-- `image.Decode(os.Stdin)` -/
  stdinDecode : Except Error Image
  /-- `os.Open(path)`, and then `image.Decode` of the opened file -/
  osOpen : GoString → Except Error (Except Error Image)
  /-- the error of `ioutil.WriteFile(path, data, 0644)`, if any -/
  osWriteFile : GoString → List Byte → Option Error
  /-- the error of `os.OpenFile(path, O_CREATE|O_TRUNC|O_WRONLY, 0644)`, if any -/
  osCreate : GoString → Option Error
  /-- the error of `png.Encode(file, img)`, if any -/
  pngEncode : GoString → Image → Option Error

/-- `os.ModeCharDevice`. -/
def ModeCharDevice : Nat := 1 <<< 21

/-- `readFilePath`: the value of the argument `path`, or the fatal error. -/
def readFilePath (pathArg : GoString) : Except Exit GoString :=
  if pathArg = [] then .error (.fatal "missing required argument: path" []) else .ok pathArg

/-- `readFile`: `image.Decode` of an opened file. -/
def readFile (decoded : Except Error Image) : Except Error Image :=
  match decoded with
  | .error e => .error ("cannot decode file: " ++ e)
  | .ok img => .ok img

/-- `readImage`. -/
def readImage (env : Env) (filePath : GoString) : Except Error Image :=
  match env.osOpen filePath with
  | .error e => .error ("cannot open file: " ++ e)
  | .ok file => readFile file

/-- `writeImage`: the events and the returned error. -/
def writeImage (env : Env) (img : Image) (filePath : GoString) : List Event × Option Error :=
  match env.osCreate filePath with
  | some e => ([.createTruncate filePath], some ("cannot open file: " ++ e))
  | none =>
    match env.pngEncode filePath img with
    | some e =>
      ([.createTruncate filePath, .pngEncode filePath img], some ("cannot encode file: " ++ e))
    | none => ([.createTruncate filePath, .pngEncode filePath img], none)

/-- The output path of `image-to-raw-data` (lines 60 to 66). -/
def outputPath (windows : Bool) (output filePath : GoString) : GoString :=
  if output ≠ [] then output
  else
    let ext := Ext windows filePath
    filePath.take (filePath.length - ext.length) ++ dotData

/-- The pixel data of `image-to-raw-data` (lines 73 to 76); `none` when
`image.NewRGBA` panics. -/
def rawData (arch : Arch) (img : Image) : Option (List Byte) :=
  let bounds := img.Bounds
  match NewRGBA arch bounds with
  | none => none
  | some rgba => some (Draw rgba bounds img bounds.Min).Pix

/-- `cmdImageToRawData`, given the argument `path` and the option `output`. -/
def cmdImageToRawData (env : Env) (pathArg output : GoString) : Run :=
  match readFilePath pathArg with
  | .error exit => ⟨[], exit⟩
  | .ok filePath =>
    let out := outputPath env.windows output filePath
    match readImage env filePath with
    | .error e =>
      ⟨[.openFile filePath], .fatal "cannot read image from %q: %v" [.str filePath, .err e]⟩
    | .ok img =>
      match rawData env.arch img with
      | none => ⟨[.openFile filePath], .panicked⟩
      | some data =>
        match env.osWriteFile out data with
        | some e =>
          ⟨[.openFile filePath, .writeFile out data],
            .fatal "cannot write %q: %v" [.str out, .err e]⟩
        | none => ⟨[.openFile filePath, .writeFile out data], .returned⟩

/-- `cmdEncodeImage`, given the optional argument `path` (empty when absent). -/
def cmdEncodeImage (lib : Codec) (env : Env) (pathArg : GoString) : Run :=
  match env.stdinStat with
  | none => ⟨[], .panicked⟩
  | some mode =>
    if mode &&& ModeCharDevice = 0 then
      match readFile env.stdinDecode with
      | .error e => ⟨[.readStdin], .fatal "cannot read image from pipe: %v" [.err e]⟩
      | .ok img =>
        ⟨[.readStdin, .encodeImage img,
          .stdout (EncodeToString (lib.EncodeImage img) ++ [10])], .returned⟩
    else
      match readFilePath pathArg with
      | .error exit => ⟨[], exit⟩
      | .ok filePath =>
        match readImage env filePath with
        | .error e =>
          ⟨[.openFile filePath], .fatal "cannot read image from %q: %v" [.str filePath, .err e]⟩
        | .ok img =>
          ⟨[.openFile filePath, .encodeImage img,
            .stdout (EncodeToString (lib.EncodeImage img) ++ [10])], .returned⟩

/-- Lines 111 to 122 of `cmdDecodeImage`: the configuration, or the size string
of the fatal error.  `size` is `none` when the option is not set. -/
def sizeCfg (arch : Arch) (size : Option GoString) : Except GoString DecodingCfg :=
  match size with
  | none => .ok ⟨0⟩
  | some sizeString =>
    let (i64, err) := ParseInt sizeString
    if err ≠ none ∨ i64 < 1 ∨ i64 > MaxInt32 then .error sizeString
    else .ok ⟨intOfInt64 arch i64⟩

/-- `cmdDecodeImage`, given the arguments `path` and `hash` and the option
`size`. -/
def cmdDecodeImage (lib : Codec) (env : Env) (pathArg hashString : GoString)
    (size : Option GoString) : Run :=
  match readFilePath pathArg with
  | .error exit => ⟨[], exit⟩
  | .ok filePath =>
    match DecodeString hashString with
    | .error e => ⟨[], .fatal "cannot decode base64-encoded hash: %v" [.err e]⟩
    | .ok hash =>
      match sizeCfg env.arch size with
      | .error sizeString => ⟨[], .fatal "invalid image size %q" [.str sizeString]⟩
      | .ok cfg =>
        match lib.DecodeImageWithCfg hash cfg with
        | .error e => ⟨[.decodeImage hash cfg], .fatal "cannot decode image: %v" [.err e]⟩
        | .ok img =>
          match writeImage env img filePath with
          | (events, some e) =>
            ⟨.decodeImage hash cfg :: events, .fatal "cannot encode image: %v" [.err e]⟩
          | (events, none) => ⟨.decodeImage hash cfg :: events, .returned⟩

/-- The event is one of `writeImage`: the output file is created or truncated,
or PNG data is written to it. -/
def Event.isWrite : Event → Bool
  | .createTruncate _ => true
  | .pngEncode _ _ => true
  | _ => false

/-- The unread input after the loop of `decodeQuantum`. -/
def Collected.rest : Collected → GoString
  | .filled rest _ _ _ => rest
  | .returned rest _ => rest

/-- The lines printed on standard output, in order. -/
def stdoutOf : List Event → List GoString
  | [] => []
  | .stdout line :: rest => line :: stdoutOf rest
  | _ :: rest => stdoutOf rest

/-- The file mode is that of a character device: the bit `os.ModeCharDevice`,
bit 21, is set. -/
def isCharDevice (mode : Nat) : Bool := mode.testBit 21

/-! ## Concrete inputs -/

/-- A codec whose encoder returns three fixed bytes and whose decoder accepts
only the empty hash, answering with a 1×1 opaque grey image. -/
def exampleCodec : Codec where
  EncodeImage := fun _ => [1, 2, 3]
  DecodeImageWithCfg := fun hash _ =>
    if hash = [] then .ok ⟨⟨⟨0, 0⟩, ⟨1, 1⟩⟩, fun _ _ => .Gray 128⟩
    else .error "malformed hash"

/-- A 64-bit Unix machine whose standard input is a terminal, whose files
cannot be opened for reading and whose writes all succeed. -/
def exampleEnv : Env where
  arch := .bits64
  windows := false
  stdinStat := some ModeCharDevice
  stdinDecode := .error "image: unknown format"
  osOpen := fun _ => .error "no such file or directory"
  osWriteFile := fun _ _ => none
  osCreate := fun _ => none
  pngEncode := fun _ _ => none

/-- A 1×1 image whose pixel is the straight colour red at alpha 128,
`color.NRGBA{255, 0, 0, 128}`. -/
def translucentRed : Image where
  Bounds := ⟨⟨0, 0⟩, ⟨1, 1⟩⟩
  At := fun _ _ => .NRGBA 255 0 0 128

/-- A 2×2 image with bounds from `(3, 5)`, its pixels of several colour types. -/
def fourPixels : Image where
  Bounds := ⟨⟨3, 5⟩, ⟨5, 7⟩⟩
  At := fun x y =>
    if x = 3 then .NRGBA 255 0 0 128 else if y = 5 then .RGBA 1 2 3 4 else .Gray 77

/-- A machine like `exampleEnv` on which every path opens as `translucentRed`. -/
def translucentEnv : Env :=
  { exampleEnv with osOpen := fun _ => .ok (.ok translucentRed) }

/-- A machine like `exampleEnv` on which every path opens as `fourPixels`. -/
def fourPixelsEnv : Env :=
  { exampleEnv with osOpen := fun _ => .ok (.ok fourPixels) }

/-- An image of width 0 and height 0, with no pixel. -/
def emptyImage : Image where
  Bounds := ZR
  At := fun _ _ => .RGBA 0 0 0 0

/-- A machine like `exampleEnv` whose standard input is a pipe (mode 0) that
carries `emptyImage`. -/
def emptyPipeEnv : Env :=
  { exampleEnv with stdinStat := some 0, stdinDecode := .ok emptyImage }

/-- A machine like `exampleEnv` on which every path opens as `emptyImage`. -/
def emptyFileEnv : Env :=
  { exampleEnv with osOpen := fun _ => .ok (.ok emptyImage) }

/-! ## Theorems: `strconv.ParseInt` and the size option -/

theorem decimalValueFrom_ge (ds : List Byte) (acc : Nat) : acc ≤ decimalValueFrom ds acc := by
  induction ds generalizing acc with
  | nil => simp [decimalValueFrom]
  | cons c cs ih =>
    simp only [decimalValueFrom]
    have := ih (acc * 10 + (c.val - 0x30))
    omega

theorem maxUint64_eq : maxUint64 = 18446744073709551615 := by decide

/-- One round of the loop of `ParseUint` on a digit. -/
theorem parseUintLoop_cons_digit (c : Byte) (cs : List Byte) (n : Nat) (hc : isDigit c) :
    parseUintLoop (c :: cs) n =
      if n ≥ 1844674407370955162 then (18446744073709551615, some .ErrRange)
      else if (n * 10 % 18446744073709551616 + (c.val - 48)) % 18446744073709551616
            < n * 10 % 18446744073709551616 ∨
          (n * 10 % 18446744073709551616 + (c.val - 48)) % 18446744073709551616
            > 18446744073709551615 then
        (18446744073709551615, some .ErrRange)
      else parseUintLoop cs
        ((n * 10 % 18446744073709551616 + (c.val - 48)) % 18446744073709551616) := by
  unfold isDigit at hc
  have hd10 : ¬ (c.val - 48 ≥ 10) := by omega
  rw [parseUintLoop]
  simp only [hc, and_self, if_true, hd10, if_false, maxUint64_eq]
  rfl

/-- One round of the loop of `ParseUint` on a byte that is not a digit. -/
theorem parseUintLoop_cons_other (c : Byte) (cs : List Byte) (n : Nat) (hc : ¬ isDigit c) :
    parseUintLoop (c :: cs) n = (0, some .ErrSyntax) := by
  unfold isDigit at hc
  rw [parseUintLoop]
  simp only [hc, if_false]
  by_cases hl : 0x61 ≤ lower c ∧ lower c ≤ 0x7a
  · have : (lower c - 0x61 + 10) % 256 ≥ 10 := by
      have := hl.1; have := hl.2; omega
    simp only [hl, and_self, if_true, this]
  · simp only [hl, if_false]

/-- On a digit string the loop of `ParseUint` computes the decimal value, or
reports a range error when that value does not fit 64 bits. -/
theorem parseUintLoop_digits (ds : List Byte) (hd : ∀ c ∈ ds, isDigit c) (n : Nat)
    (hn : n ≤ maxUint64) :
    parseUintLoop ds n =
      if decimalValueFrom ds n ≤ maxUint64 then (decimalValueFrom ds n, none)
      else (maxUint64, some .ErrRange) := by
  induction ds generalizing n with
  | nil => simp [parseUintLoop, decimalValueFrom, hn]
  | cons c cs ih =>
    have hc : isDigit c := hd c (List.mem_cons_self _ _)
    have hcs : ∀ c ∈ cs, isDigit c := fun x hx => hd x (List.mem_cons_of_mem _ hx)
    have hge := decimalValueFrom_ge cs (n * 10 + (c.val - 0x30))
    rw [parseUintLoop_cons_digit c cs n hc]
    simp only [decimalValueFrom]
    unfold isDigit at hc
    rw [maxUint64_eq] at hn ⊢
    by_cases h1 : n ≥ 1844674407370955162
    · rw [if_pos h1, if_neg (by omega)]
    · rw [if_neg h1]
      have e10 : n * 10 % 18446744073709551616 = n * 10 := Nat.mod_eq_of_lt (by omega)
      rw [e10]
      by_cases h2 : n * 10 + (c.val - 48) < 18446744073709551616
      · have e1 : (n * 10 + (c.val - 48)) % 18446744073709551616 = n * 10 + (c.val - 48) :=
          Nat.mod_eq_of_lt h2
        rw [e1, if_neg (by omega)]
        have := ih hcs (n * 10 + (c.val - 48)) (by rw [maxUint64_eq]; omega)
        rw [maxUint64_eq] at this
        exact this
      · rw [if_pos (by left; omega), if_neg (by omega)]

/-- The loop of `ParseUint` ends without an error only on digit strings. -/
theorem parseUintLoop_ok_digits (s : List Byte) (n v : Nat)
    (h : parseUintLoop s n = (v, none)) : ∀ c ∈ s, isDigit c := by
  induction s generalizing n with
  | nil => simp
  | cons c cs ih =>
    by_cases hc : isDigit c
    · rw [parseUintLoop_cons_digit c cs n hc] at h
      split at h
      · simp at h
      · split at h
        · simp at h
        · intro x hx
          rcases List.mem_cons.mp hx with rfl | hx
          · exact hc
          · exact ih _ h x hx
    · rw [parseUintLoop_cons_other c cs n hc] at h
      simp at h

/-- `ParseUint` succeeds exactly on the non-empty digit strings whose value
fits 64 bits, and returns that value. -/
theorem ParseUint_ok_iff (s : GoString) (v : Nat) :
    ParseUint s = (v, none) ↔
      s ≠ [] ∧ (∀ c ∈ s, isDigit c) ∧ decimalValue s = v ∧ v ≤ maxUint64 := by
  unfold ParseUint decimalValue
  by_cases hs : s = []
  · simp [hs]
  · rw [if_neg hs]
    constructor
    · intro h
      have hd := parseUintLoop_ok_digits s 0 v h
      rw [parseUintLoop_digits s hd 0 (by rw [maxUint64_eq]; omega)] at h
      split at h
      · rename_i hle
        simp only [Prod.mk.injEq, and_true] at h
        exact ⟨hs, hd, h, h ▸ hle⟩
      · simp at h
    · rintro ⟨_, hd, hv, hle⟩
      rw [parseUintLoop_digits s hd 0 (by rw [maxUint64_eq]; omega), hv, if_pos hle]

/-- A range error of the loop of `ParseUint` comes with the value `maxUint64`. -/
theorem parseUintLoop_range_val (s : List Byte) (n v : Nat)
    (h : parseUintLoop s n = (v, some .ErrRange)) : v = maxUint64 := by
  induction s generalizing n with
  | nil => simp [parseUintLoop] at h
  | cons c cs ih =>
    by_cases hc : isDigit c
    · rw [parseUintLoop_cons_digit c cs n hc] at h
      rw [maxUint64_eq]
      split at h
      · simp only [Prod.mk.injEq, and_true] at h; exact h.symm
      · split at h
        · simp only [Prod.mk.injEq, and_true] at h; exact h.symm
        · have := ih _ h
          rw [maxUint64_eq] at this
          exact this
    · rw [parseUintLoop_cons_other c cs n hc] at h
      simp at h

theorem ParseUint_range_val (s : GoString) (v : Nat)
    (h : ParseUint s = (v, some .ErrRange)) : v = maxUint64 := by
  unfold ParseUint at h
  split at h
  · simp at h
  · exact parseUintLoop_range_val s 0 v h

/-- `ParseInt` in terms of `ParseUint` of the string without its sign. -/
theorem ParseInt_cons (c : Byte) (cs : GoString) :
    ParseInt (c :: cs) =
      if (ParseUint (if c.val = 0x2b ∨ c.val = 0x2d then cs else c :: cs)).2 = some .ErrSyntax
      then (0, some .ErrSyntax)
      else if c.val ≠ 0x2d ∧
          (ParseUint (if c.val = 0x2b ∨ c.val = 0x2d then cs else c :: cs)).1 ≥ 2 ^ 63
      then ((2 ^ 63 : Int) - 1, some .ErrRange)
      else if c.val = 0x2d ∧
          (ParseUint (if c.val = 0x2b ∨ c.val = 0x2d then cs else c :: cs)).1 > 2 ^ 63
      then (-(2 ^ 63 : Int), some .ErrRange)
      else if c.val = 0x2d
      then (-((ParseUint (if c.val = 0x2b ∨ c.val = 0x2d then cs else c :: cs)).1 : Int), none)
      else
        (((ParseUint (if c.val = 0x2b ∨ c.val = 0x2d then cs else c :: cs)).1 : Int), none) := by
  rw [ParseInt]
  rcases hres : ParseUint (if c.val = 0x2b ∨ c.val = 0x2d then cs else c :: cs) with
    ⟨un, err⟩
  simp only [hres]
  by_cases he : err = some .ErrSyntax
  · simp [he]
  · by_cases hneg : c.val = 0x2d
    · simp [he, hneg]
    · simp [he, hneg]

/-- The result of `ParseInt` once `ParseUint` has succeeded on the string
without its sign. -/
theorem ParseInt_of_ParseUint (c : Byte) (cs body : GoString) (un : Nat)
    (hb : (if c.val = 0x2b ∨ c.val = 0x2d then cs else c :: cs) = body)
    (hu : ParseUint body = (un, none)) :
    ParseInt (c :: cs) =
      if c.val ≠ 0x2d ∧ un ≥ 2 ^ 63 then ((2 ^ 63 : Int) - 1, some .ErrRange)
      else if c.val = 0x2d ∧ un > 2 ^ 63 then (-(2 ^ 63 : Int), some .ErrRange)
      else if c.val = 0x2d then (-(un : Int), none)
      else ((un : Int), none) := by
  rw [ParseInt_cons, hb, hu]
  simp

/-- `ParseInt` fails when `ParseUint` fails on the string without its sign. -/
theorem ParseInt_of_ParseUint_err (c : Byte) (cs body : GoString) (un : Nat) (e : NumError)
    (hb : (if c.val = 0x2b ∨ c.val = 0x2d then cs else c :: cs) = body)
    (hu : ParseUint body = (un, some e)) :
    (ParseInt (c :: cs)).2 ≠ none := by
  rw [ParseInt_cons, hb, hu]
  cases e
  · simp
  · have hv := ParseUint_range_val _ _ hu
    rw [maxUint64_eq] at hv
    subst hv
    by_cases hneg : c.val = 0x2d <;> simp [hneg]

/-- `ParseInt` succeeds exactly on the base-10 numerals of the integers that
fit 64 bits, and returns the integer. -/
theorem ParseInt_ok_iff (s : GoString) (i : Int) :
    ParseInt s = (i, none) ↔ IsDecimalOf s i ∧ -(2 ^ 63 : Int) ≤ i ∧ i ≤ 2 ^ 63 - 1 := by
  cases s with
  | nil =>
    constructor
    · intro h; simp [ParseInt] at h
    · rintro ⟨⟨ds, hne, _, h | h | h⟩, _⟩
      · exact absurd h.1.symm hne
      · simp at h
      · simp at h
  | cons c cs =>
    constructor
    · intro h
      rcases hres : ParseUint (if c.val = 0x2b ∨ c.val = 0x2d then cs else c :: cs) with
        ⟨un, err⟩
      rcases err with _ | e
      · obtain ⟨hne, hd, hv, hle⟩ := (ParseUint_ok_iff _ _).mp hres
        rw [ParseInt_of_ParseUint c cs _ un rfl hres] at h
        split at h
        · simp at h
        · split at h
          · simp at h
          · rename_i h1 h2
            by_cases hneg : c.val = 0x2d
            · rw [if_pos hneg] at h
              simp only [Prod.mk.injEq, and_true] at h
              rw [if_pos (Or.inr hneg)] at hne hd hv
              have hc : c = (0x2d : Byte) := Fin.ext hneg
              refine ⟨⟨cs, hne, hd, Or.inr (Or.inr ⟨by rw [hc], by rw [hv]; exact h.symm⟩)⟩,
                ?_, ?_⟩ <;> omega
            · rw [if_neg hneg] at h
              simp only [Prod.mk.injEq, and_true] at h
              by_cases hpos : c.val = 0x2b
              · rw [if_pos (Or.inl hpos)] at hne hd hv
                have hc : c = (0x2b : Byte) := Fin.ext hpos
                refine ⟨⟨cs, hne, hd,
                  Or.inr (Or.inl ⟨by rw [hc], by rw [hv]; exact h.symm⟩)⟩, ?_, ?_⟩ <;> omega
              · rw [if_neg (by omega)] at hne hd hv
                refine ⟨⟨c :: cs, hne, hd, Or.inl ⟨rfl, by rw [hv]; exact h.symm⟩⟩,
                  ?_, ?_⟩ <;> omega
      · have := ParseInt_of_ParseUint_err c cs _ un e rfl hres
        rw [h] at this
        exact absurd rfl this
    · rintro ⟨⟨ds, hne, hd, h | h | h⟩, hlo, hhi⟩
      · obtain ⟨hs, hi⟩ := h
        have hcdig : isDigit c := hd c (by rw [← hs]; exact List.mem_cons_self _ _)
        have h1 : ¬ c.val = 0x2b := by unfold isDigit at hcdig; omega
        have h2 : ¬ c.val = 0x2d := by unfold isDigit at hcdig; omega
        have hle : decimalValue ds ≤ maxUint64 := by rw [maxUint64_eq]; omega
        have hu := (ParseUint_ok_iff ds (decimalValue ds)).mpr ⟨hne, hd, rfl, hle⟩
        rw [ParseInt_of_ParseUint c cs ds _ (by rw [if_neg (by omega), hs]) hu,
          if_neg (by omega), if_neg (by omega), if_neg h2, hi]
      · obtain ⟨hs, hi⟩ := h
        obtain ⟨hc, hcs⟩ := List.cons.inj hs
        have h1 : c.val = 0x2b := by rw [hc]; rfl
        have hle : decimalValue ds ≤ maxUint64 := by rw [maxUint64_eq]; omega
        have hu := (ParseUint_ok_iff ds (decimalValue ds)).mpr ⟨hne, hd, rfl, hle⟩
        rw [ParseInt_of_ParseUint c cs ds _ (by rw [if_pos (Or.inl h1), hcs]) hu,
          if_neg (by omega), if_neg (by omega), if_neg (by omega), hi]
      · obtain ⟨hs, hi⟩ := h
        obtain ⟨hc, hcs⟩ := List.cons.inj hs
        have h1 : c.val = 0x2d := by rw [hc]; rfl
        have hle : decimalValue ds ≤ maxUint64 := by rw [maxUint64_eq]; omega
        have hu := (ParseUint_ok_iff ds (decimalValue ds)).mpr ⟨hne, hd, rfl, hle⟩
        rw [ParseInt_of_ParseUint c cs ds _ (by rw [if_pos (Or.inr h1), hcs]) hu,
          if_neg (by omega), if_neg (by omega), if_pos h1, hi]

/-- The conversion `int(i64)` keeps every value that fits 32 bits. -/
theorem intOfInt64_small (arch : Arch) (v : Int) (h1 : -(2 ^ 31 : Int) ≤ v)
    (h2 : v ≤ 2 ^ 31 - 1) : intOfInt64 arch v = v := by
  cases arch <;> simp only [intOfInt64, Arch.intSize] <;> omega

theorem MaxInt32_eq : MaxInt32 = 2147483647 := by decide

/-- The size option is accepted on the numerals of 1 to `2^31-1`. -/
theorem sizeCfg_accept (arch : Arch) (s : GoString) (n : Int) (hs : IsDecimalOf s n)
    (h1 : 1 ≤ n) (h2 : n ≤ 2 ^ 31 - 1) : sizeCfg arch (some s) = .ok ⟨n⟩ := by
  have hp : ParseInt s = (n, none) := (ParseInt_ok_iff s n).mpr ⟨hs, by omega, by omega⟩
  simp only [sizeCfg, hp, MaxInt32_eq]
  rw [if_neg (by simp; omega), intOfInt64_small arch n (by omega) (by omega)]

/-- The size option is refused on every other string. -/
theorem sizeCfg_refuse (arch : Arch) (s : GoString)
    (hs : ¬ ∃ n : Int, IsDecimalOf s n ∧ 1 ≤ n ∧ n ≤ 2 ^ 31 - 1) :
    sizeCfg arch (some s) = .error s := by
  rcases hp : ParseInt s with ⟨i64, err⟩
  simp only [sizeCfg, hp, MaxInt32_eq]
  by_cases hc : err ≠ none ∨ i64 < 1 ∨ i64 > 2147483647
  · rw [if_pos hc]
  · exfalso
    simp only [not_or, not_not, not_lt] at hc
    obtain ⟨he, h1, h2⟩ := hc
    subst he
    exact hs ⟨i64, ((ParseInt_ok_iff s i64).mp hp).1, h1, by omega⟩

/-- The shape of a run of `decode-image` that gets past its arguments: one
call of the decoder, then at most the writing of the output file. -/
theorem cmdDecodeImage_reach (lib : Codec) (env : Env) (pathArg hashString : GoString)
    (size : Option GoString) (hash : List Byte) (cfg : DecodingCfg) (hp : pathArg ≠ [])
    (hh : DecodeString hashString = .ok hash) (hc : sizeCfg env.arch size = .ok cfg) :
    ∃ tail, (cmdDecodeImage lib env pathArg hashString size).events =
        .decodeImage hash cfg :: tail ∧
      (∀ h c, Event.decodeImage h c ∉ tail) ∧
      (tail ≠ [] → ∃ img, lib.DecodeImageWithCfg hash cfg = .ok img) := by
  simp only [cmdDecodeImage, readFilePath, if_neg hp, hh, hc]
  rcases hd : lib.DecodeImageWithCfg hash cfg with e | img
  · exact ⟨[], rfl, by simp, by simp⟩
  · simp only [writeImage]
    rcases env.osCreate pathArg with _ | e1
    · rcases env.pngEncode pathArg img with _ | e2
      · exact ⟨_, rfl, by simp, fun _ => ⟨img, rfl⟩⟩
      · exact ⟨_, rfl, by simp, fun _ => ⟨img, rfl⟩⟩
    · exact ⟨_, rfl, by simp, fun _ => ⟨img, rfl⟩⟩

/-- C1: in `decode-image` with the size option set to `s` (the path given and
the hash decoded from base64), the decoder is called if and only if `s` is the
base-10 numeral of an integer `n` with `1 <= n <= 2^31-1`; the call then
carries `BaseSize = n`, on both sizes of `int`; on every other `s` the run is
the fatal error "invalid image size" and nothing else. -/
theorem cmdDecodeImage_size_gate (lib : Codec) (env : Env)
    (pathArg hashString s : GoString) (hash : List Byte) (hp : pathArg ≠ [])
    (hh : DecodeString hashString = .ok hash) :
    ((∃ h cfg, Event.decodeImage h cfg ∈
        (cmdDecodeImage lib env pathArg hashString (some s)).events) ↔
      ∃ n : Int, IsDecimalOf s n ∧ 1 ≤ n ∧ n ≤ 2 ^ 31 - 1) ∧
    (∀ n : Int, IsDecimalOf s n → 1 ≤ n → n ≤ 2 ^ 31 - 1 →
      (cmdDecodeImage lib env pathArg hashString (some s)).events.head? =
          some (.decodeImage hash ⟨n⟩) ∧
        ∀ h cfg, Event.decodeImage h cfg ∈
          (cmdDecodeImage lib env pathArg hashString (some s)).events →
          h = hash ∧ cfg.BaseSize = n) ∧
    ((¬ ∃ n : Int, IsDecimalOf s n ∧ 1 ≤ n ∧ n ≤ 2 ^ 31 - 1) →
      (cmdDecodeImage lib env pathArg hashString (some s)).events = [] ∧
      (cmdDecodeImage lib env pathArg hashString (some s)).exit =
        .fatal "invalid image size %q" [.str s]) := by
  have hacc : ∀ n : Int, IsDecimalOf s n → 1 ≤ n → n ≤ 2 ^ 31 - 1 →
      (cmdDecodeImage lib env pathArg hashString (some s)).events.head? =
          some (.decodeImage hash ⟨n⟩) ∧
        ∀ h cfg, Event.decodeImage h cfg ∈
          (cmdDecodeImage lib env pathArg hashString (some s)).events →
          h = hash ∧ cfg.BaseSize = n := by
    intro n hn h1 h2
    obtain ⟨tail, hev, hno, _⟩ := cmdDecodeImage_reach lib env pathArg hashString (some s) hash
      ⟨n⟩ hp hh (sizeCfg_accept env.arch s n hn h1 h2)
    rw [hev]
    refine ⟨rfl, ?_⟩
    intro h cfg hmem
    rcases List.mem_cons.mp hmem with heq | hin
    · simp only [Event.decodeImage.injEq] at heq
      exact ⟨heq.1, by rw [heq.2]⟩
    · exact absurd hin (hno h cfg)
  have hrej : (¬ ∃ n : Int, IsDecimalOf s n ∧ 1 ≤ n ∧ n ≤ 2 ^ 31 - 1) →
      (cmdDecodeImage lib env pathArg hashString (some s)).events = [] ∧
      (cmdDecodeImage lib env pathArg hashString (some s)).exit =
        .fatal "invalid image size %q" [.str s] := by
    intro hn
    simp [cmdDecodeImage, readFilePath, if_neg hp, hh, sizeCfg_refuse env.arch s hn]
  refine ⟨⟨?_, ?_⟩, hacc, hrej⟩
  · rintro ⟨h, cfg, hmem⟩
    by_contra hn
    rw [(hrej hn).1] at hmem
    simp at hmem
  · rintro ⟨n, hn, h1, h2⟩
    have := (hacc n hn h1 h2).1
    refine ⟨hash, ⟨n⟩, ?_⟩
    exact List.mem_of_mem_head? this

/-- C1 at a concrete input: `decode-image -s 8 o ""` calls the decoder with
`BaseSize = 8`. -/
theorem cmdDecodeImage_size_gate_witness :
    ([0x6f] : GoString) ≠ [] ∧ DecodeString [] = .ok [] ∧
    (cmdDecodeImage exampleCodec exampleEnv [0x6f] [] (some [0x38])).events.head? =
      some (.decodeImage [] ⟨8⟩) :=
  ⟨by decide, rfl,
    ((cmdDecodeImage_size_gate exampleCodec exampleEnv [0x6f] [] [0x38] [] (by decide) rfl).2.1 8
      ⟨[0x38], by decide, fun c hc => by rw [List.mem_singleton.mp hc]; decide,
        Or.inl ⟨rfl, rfl⟩⟩ (by norm_num) (by norm_num)).1⟩

/-! ## Theorems: `decode-image` -/

/-- C2: `decode-image` does not touch the output file on failure: when the
hash is not valid base64, when the size option is set to a string that is not
the numeral of an integer from 1 to `2^31-1`, or when `DecodeImageWithCfg`
returns an error, the run ends in a fatal error and has no event of
`writeImage` (no file is created or truncated, no PNG data written). -/
theorem cmdDecodeImage_failure_writes_nothing (lib : Codec) (env : Env)
    (pathArg hashString : GoString) (size : Option GoString)
    (hfail : (∃ e, DecodeString hashString = .error e) ∨
      (∃ s, size = some s ∧ ¬ ∃ n : Int, IsDecimalOf s n ∧ 1 ≤ n ∧ n ≤ 2 ^ 31 - 1) ∨
      (∃ hash cfg e, DecodeString hashString = .ok hash ∧ sizeCfg env.arch size = .ok cfg ∧
        lib.DecodeImageWithCfg hash cfg = .error e)) :
    (∀ ev ∈ (cmdDecodeImage lib env pathArg hashString size).events, ev.isWrite = false) ∧
    ∃ format args,
      (cmdDecodeImage lib env pathArg hashString size).exit = .fatal format args := by
  by_cases hp : pathArg = []
  · simp [cmdDecodeImage, readFilePath, hp]
  · rcases hfail with ⟨e, he⟩ | ⟨s, hs, hn⟩ | ⟨hash, cfg, e, hh, hc, hd⟩
    · simp [cmdDecodeImage, readFilePath, hp, he]
    · subst hs
      rcases hh : DecodeString hashString with e | hash
      · simp [cmdDecodeImage, readFilePath, hp, hh]
      · simp [cmdDecodeImage, readFilePath, hp, hh, sizeCfg_refuse env.arch s hn]
    · simp [cmdDecodeImage, readFilePath, hp, hh, hc, hd, Event.isWrite]

/-- C2 at a concrete input: the hash `!` is not base64. -/
theorem cmdDecodeImage_failure_writes_nothing_witness :
    (∃ e, DecodeString [0x21] = .error e) ∧
    (∀ ev ∈ (cmdDecodeImage exampleCodec exampleEnv [0x6f] [0x21] none).events,
      ev.isWrite = false) :=
  ⟨⟨_, rfl⟩,
    (cmdDecodeImage_failure_writes_nothing exampleCodec exampleEnv [0x6f] [0x21] none
      (Or.inl ⟨_, rfl⟩)).1⟩

/-- When nothing fails, `decode-image` calls the decoder once and then writes
the decoded image to the output path. -/
theorem cmdDecodeImage_success (lib : Codec) (env : Env) (pathArg hashString : GoString)
    (size : Option GoString) (hash : List Byte) (cfg : DecodingCfg) (img : Image)
    (hp : pathArg ≠ []) (hh : DecodeString hashString = .ok hash)
    (hc : sizeCfg env.arch size = .ok cfg) (hd : lib.DecodeImageWithCfg hash cfg = .ok img)
    (h1 : env.osCreate pathArg = none) (h2 : env.pngEncode pathArg img = none) :
    (cmdDecodeImage lib env pathArg hashString size).events =
      [.decodeImage hash cfg, .createTruncate pathArg, .pngEncode pathArg img] ∧
    (cmdDecodeImage lib env pathArg hashString size).exit = .returned := by
  simp [cmdDecodeImage, readFilePath, hp, hh, hc, hd, writeImage, h1, h2]

/-- C4: without the size option, every call of the decoder made by
`decode-image` carries the zero configuration, `BaseSize = 0`, which the
decoder reads as the fixed default size; and the call is made whenever the path
is given and the hash is valid base64. -/
theorem cmdDecodeImage_unset_size (lib : Codec) (env : Env) (pathArg hashString : GoString)
    (defaultSize : Int) :
    (∀ h cfg, Event.decodeImage h cfg ∈
        (cmdDecodeImage lib env pathArg hashString none).events →
      cfg = ⟨0⟩ ∧ cfg.BaseSize = 0 ∧ effectiveBaseSize defaultSize cfg = defaultSize ∧
        DecodeString hashString = .ok h) ∧
    (∀ hash, pathArg ≠ [] → DecodeString hashString = .ok hash →
      (cmdDecodeImage lib env pathArg hashString none).events.head? =
        some (.decodeImage hash ⟨0⟩)) := by
  constructor
  · intro h cfg hmem
    by_cases hp : pathArg = []
    · simp [cmdDecodeImage, readFilePath, hp] at hmem
    · rcases hh : DecodeString hashString with e | hash
      · simp [cmdDecodeImage, readFilePath, hp, hh] at hmem
      · obtain ⟨tail, hev, hno, _⟩ := cmdDecodeImage_reach lib env pathArg hashString none hash
          ⟨0⟩ hp hh rfl
        rw [hev] at hmem
        rcases List.mem_cons.mp hmem with heq | hin
        · simp only [Event.decodeImage.injEq] at heq
          obtain ⟨h1, h2⟩ := heq
          subst h1 h2
          exact ⟨rfl, rfl, by simp [effectiveBaseSize], rfl⟩
        · exact absurd hin (hno h cfg)
  · intro hash hp hh
    obtain ⟨tail, hev, _, _⟩ := cmdDecodeImage_reach lib env pathArg hashString none hash
      ⟨0⟩ hp hh rfl
    rw [hev]
    rfl

/-- C4 at a concrete input: `decode-image o ""` calls the decoder with the zero
configuration. -/
theorem cmdDecodeImage_unset_size_witness :
    (cmdDecodeImage exampleCodec exampleEnv [0x6f] [] none).events.head? =
      some (.decodeImage [] ⟨0⟩) :=
  (cmdDecodeImage_unset_size exampleCodec exampleEnv [0x6f] [] 32).2 [] (by decide) rfl

/-! ## Theorems: `encoding/base64` -/

theorem skipNewlines_length_le (s : GoString) : (skipNewlines s).length ≤ s.length := by
  induction s with
  | nil => simp [skipNewlines]
  | cons c cs ih =>
    rw [skipNewlines]
    split
    · simp only [List.length_cons]; omega
    · exact Nat.le_refl _

/-- The loop of `decodeQuantum` reads at least one byte of a non-empty input. -/
theorem collect_rest_length (src : GoString) (j : Nat) (dbuf : List Nat) :
    (collect src j dbuf).rest.length ≤ src.length - 1 := by
  induction src generalizing j dbuf with
  | nil => rw [collect]; split <;> simp [Collected.rest]
  | cons c cs ih =>
    have hsk := skipNewlines_length_le cs
    have hrec : ∀ j dbuf, (collect cs j dbuf).rest.length ≤ (c :: cs).length - 1 := by
      intro j dbuf
      have := ih j dbuf
      simp only [List.length_cons, Nat.add_sub_cancel]
      omega
    simp only [List.length_cons, Nat.add_sub_cancel] at hrec ⊢
    by_cases h1 : decodeMap c ≠ 0xff
    · by_cases h2 : j + 1 < 4
      · unfold collect; simp only [if_pos h1, if_pos h2]; exact hrec _ _
      · unfold collect; simp only [if_pos h1, if_neg h2]; simp [Collected.rest]
    · by_cases h2 : c.val = 10 ∨ c.val = 13
      · unfold collect; simp only [if_neg h1, if_pos h2]; exact hrec _ _
      · by_cases h3 : c ≠ padChar
        · unfold collect; simp only [if_neg h1, if_neg h2, if_pos h3]; simp [Collected.rest]
        · rcases j with _ | _ | _ | j
          · unfold collect; simp only [if_neg h1, if_neg h2, if_neg h3]; simp [Collected.rest]
          · unfold collect; simp only [if_neg h1, if_neg h2, if_neg h3]; simp [Collected.rest]
          · unfold collect; simp only [if_neg h1, if_neg h2, if_neg h3]
            split
            · simp [Collected.rest]
            · rename_i p after heq
              rw [heq] at hsk
              have h4 := skipNewlines_length_le after
              simp only [List.length_cons] at hsk
              split
              · simp only [Collected.rest, List.length_cons]; omega
              · simp only [Collected.rest]; omega
          · unfold collect; simp only [if_neg h1, if_neg h2, if_neg h3]
            simpa [Collected.rest] using hsk

theorem decodeQuantum_rest_length (c : Byte) (cs : GoString) :
    (decodeQuantum (c :: cs)).rest.length ≤ cs.length := by
  have h := collect_rest_length (c :: cs) 0 [0, 0, 0, 0]
  simp only [List.length_cons, Nat.add_sub_cancel] at h
  unfold decodeQuantum
  split
  · rename_i heq; rw [heq] at h; exact h
  · rename_i heq; rw [heq] at h; exact h

/-- The loop of `Decode` ends within one round a byte of input. -/
theorem decodeLoop_total (s : GoString) (fuel : Nat) (hf : fuel ≥ s.length) :
    ∃ r, decodeLoop fuel s = some r := by
  induction fuel generalizing s with
  | zero =>
    cases s with
    | nil => exact ⟨_, rfl⟩
    | cons c cs => simp at hf
  | succ f ih =>
    cases s with
    | nil => exact ⟨_, rfl⟩
    | cons c cs =>
      rw [decodeLoop]
      split
      · exact ⟨_, rfl⟩
      · have hr := decodeQuantum_rest_length c cs
        obtain ⟨r, hr2⟩ := ih (decodeQuantum (c :: cs)).rest (by
          simp only [List.length_cons] at hf; omega)
        rw [hr2]
        cases r <;> exact ⟨_, rfl⟩

/-- `DecodeString` is the result of the loop of `Decode`: it never runs out of
rounds. -/
theorem DecodeString_eq (s : GoString) : decodeLoop s.length s = some (DecodeString s) := by
  obtain ⟨r, hr⟩ := decodeLoop_total s s.length (Nat.le_refl _)
  simp only [DecodeString, hr]

set_option maxRecDepth 100000 in
theorem decodeMap_encodeChar_fin : ∀ i : Fin 64, decodeMap (encodeChar i.val) = i.val := by
  decide

theorem decodeMap_encodeChar (i : Nat) (h : i < 64) : decodeMap (encodeChar i) = i :=
  decodeMap_encodeChar_fin ⟨i, h⟩

theorem decodeMap_padChar : decodeMap padChar = 0xff := by decide

/-- The six bits of `x` from bit `k` on. -/
theorem sextet_eq (x k : Nat) : x >>> k &&& 0x3F = x / 2 ^ k % 64 := by
  rw [Nat.shiftRight_eq_div_pow]
  exact Nat.and_pow_two_sub_one_eq_mod _ 6

/-- The lowest six bits of `x`. -/
theorem low6_eq (x : Nat) : x &&& 0x3F = x % 64 :=
  Nat.and_pow_two_sub_one_eq_mod _ 6

/-- A bitwise or with a value below the lowest set bit is a sum. -/
theorem or_low (m y k : Nat) (hm : m % 2 ^ k = 0) (hy : y < 2 ^ k) : m ||| y = m + y := by
  have h := Nat.mul_add_lt_is_or hy (m / 2 ^ k)
  have hm2 : 2 ^ k * (m / 2 ^ k) = m := by
    have := Nat.div_add_mod m (2 ^ k)
    omega
  rw [hm2] at h
  exact h.symm

/-- The 24-bit group of `Encode`, as a number. -/
theorem pack3 (a b c : Nat) (hb : b < 256) (hc : c < 256) :
    a <<< 16 ||| b <<< 8 ||| c = a * 65536 + b * 256 + c := by
  rw [Nat.shiftLeft_eq, Nat.shiftLeft_eq]
  rw [or_low (a * 2 ^ 16) (b * 2 ^ 8) 16 (by omega) (by omega)]
  rw [or_low (a * 2 ^ 16 + b * 2 ^ 8) c 8 (by omega) (by omega)]

/-- The 24-bit group of `decodeQuantum`, as a number. -/
theorem pack4 (p q r s : Nat) (hq : q < 64) (hr : r < 64) (hs : s < 64) :
    p <<< 18 ||| q <<< 12 ||| r <<< 6 ||| s = p * 262144 + q * 4096 + r * 64 + s := by
  rw [Nat.shiftLeft_eq, Nat.shiftLeft_eq, Nat.shiftLeft_eq]
  rw [or_low (p * 2 ^ 18) (q * 2 ^ 12) 18 (by omega) (by omega)]
  rw [or_low (p * 2 ^ 18 + q * 2 ^ 12) (r * 2 ^ 6) 12 (by omega) (by omega)]
  rw [or_low (p * 2 ^ 18 + q * 2 ^ 12 + r * 2 ^ 6) s 6 (by omega) (by omega)]

theorem toByte_eq (x : Nat) (b : Byte) (h : x % 256 = b.val) : toByte x = b := by
  apply Fin.ext
  simp [toByte, Fin.ofNat, h]

/-- The loop of `decodeQuantum` on four characters of the alphabet. -/
theorem collect_four (p q r s : Nat) (hp : p < 64) (hq : q < 64) (hr : r < 64) (hs : s < 64)
    (rest : GoString) :
    collect (encodeChar p :: encodeChar q :: encodeChar r :: encodeChar s :: rest) 0
      [0, 0, 0, 0] = .filled rest [p, q, r, s] 4 false := by
  simp only [collect, decodeMap_encodeChar _ hp, decodeMap_encodeChar _ hq,
    decodeMap_encodeChar _ hr, decodeMap_encodeChar _ hs]
  rw [if_pos (by omega), if_pos (by omega), if_pos (by omega), if_pos (by omega),
    if_pos (by omega), if_pos (by omega), if_pos (by omega), if_neg (by omega)]
  rfl

/-- The bytes `decodeQuantum` stores, from the four sextets of a group. -/
theorem decodeQuantum_filled (src rest : GoString) (p q r s dlen : Nat) (t : Bool)
    (hq : q < 64) (hr : r < 64) (hs : s < 64)
    (h : collect src 0 [0, 0, 0, 0] = .filled rest [p, q, r, s] dlen t) :
    decodeQuantum src =
      ⟨rest, [toByte ((p * 262144 + q * 4096 + r * 64 + s) / 65536),
        toByte ((p * 262144 + q * 4096 + r * 64 + s) / 256),
        toByte (p * 262144 + q * 4096 + r * 64 + s)].take (dlen - 1), t⟩ := by
  simp only [decodeQuantum, h, List.getD_cons_zero, List.getD_cons_succ]
  rw [pack4 p q r s hq hr hs]
  simp only [Nat.shiftRight_eq_div_pow]
  norm_num

/-- One full group: four characters decode to the three bytes they encode. -/
theorem decodeQuantum_group (a b c : Byte) (rest tail : GoString) :
    decodeQuantum (EncodeToString (a :: b :: c :: rest) ++ tail) =
      ⟨EncodeToString rest ++ tail, [a, b, c], false⟩ := by
  have ha := a.isLt; have hb := b.isLt; have hc := c.isLt
  simp only [EncodeToString, sextet_eq, low6_eq, pack3 a.val b.val c.val hb hc,
    List.cons_append]
  rw [decodeQuantum_filled _ _ _ _ _ _ 4 false (by omega) (by omega) (by omega)
    (collect_four _ _ _ _ (by omega) (by omega) (by omega) (by omega) _)]
  simp only [Quantum.mk.injEq, true_and, and_true]
  show [_, _, _] = _
  rw [toByte_eq _ a (by omega), toByte_eq _ b (by omega), toByte_eq _ c (by omega)]

theorem pack2 (a b : Nat) (hb : b < 256) : a <<< 16 ||| b <<< 8 = a * 65536 + b * 256 := by
  rw [Nat.shiftLeft_eq, Nat.shiftLeft_eq]
  rw [or_low (a * 2 ^ 16) (b * 2 ^ 8) 16 (by omega) (by omega)]

theorem skipNewlines_padChar (tail : GoString) :
    skipNewlines (padChar :: tail) = padChar :: tail := by
  rw [skipNewlines, if_neg (by decide)]

/-- The loop of `decodeQuantum` on three characters of the alphabet and `=`. -/
theorem collect_three_pad (p q r : Nat) (hp : p < 64) (hq : q < 64) (hr : r < 64)
    (tail : GoString) :
    collect (encodeChar p :: encodeChar q :: encodeChar r :: padChar :: tail) 0 [0, 0, 0, 0] =
      .filled (skipNewlines tail) [p, q, r, 0] 3 (decide (skipNewlines tail ≠ [])) := by
  simp only [collect, decodeMap_encodeChar _ hp, decodeMap_encodeChar _ hq,
    decodeMap_encodeChar _ hr, decodeMap_padChar]
  rw [if_pos (by omega), if_pos (by omega), if_pos (by omega), if_pos (by omega),
    if_pos (by omega), if_pos (by omega), if_neg (by omega), if_neg (by decide),
    if_neg (by simp)]
  rfl

/-- The loop of `decodeQuantum` on two characters of the alphabet and `==`. -/
theorem collect_two_pad (p q : Nat) (hp : p < 64) (hq : q < 64) (tail : GoString) :
    collect (encodeChar p :: encodeChar q :: padChar :: padChar :: tail) 0 [0, 0, 0, 0] =
      .filled (skipNewlines tail) [p, q, 0, 0] 2 (decide (skipNewlines tail ≠ [])) := by
  simp only [collect, decodeMap_encodeChar _ hp, decodeMap_encodeChar _ hq, decodeMap_padChar]
  rw [if_pos (by omega), if_pos (by omega), if_pos (by omega), if_pos (by omega),
    if_neg (by omega), if_neg (by decide), if_neg (by simp)]
  simp only [skipNewlines_padChar]
  rw [if_neg (by simp)]
  rfl

/-- The last group of two bytes: three characters and `=`. -/
theorem decodeQuantum_two (a b : Byte) (tail : GoString) (ht : skipNewlines tail = []) :
    decodeQuantum (EncodeToString [a, b] ++ tail) = ⟨[], [a, b], false⟩ := by
  have ha := a.isLt; have hb := b.isLt
  simp only [EncodeToString, sextet_eq, pack2 a.val b.val hb, List.cons_append, List.nil_append]
  rw [decodeQuantum_filled _ _ _ _ _ _ 3 _ (by omega) (by omega) (by omega)
    (collect_three_pad _ _ _ (by omega) (by omega) (by omega) _)]
  simp only [ht, Quantum.mk.injEq, true_and]
  refine ⟨?_, by simp⟩
  show [_, _] = _
  rw [toByte_eq _ a (by omega), toByte_eq _ b (by omega)]

/-- The last group of one byte: two characters and `==`. -/
theorem decodeQuantum_one (a : Byte) (tail : GoString) (ht : skipNewlines tail = []) :
    decodeQuantum (EncodeToString [a] ++ tail) = ⟨[], [a], false⟩ := by
  have ha := a.isLt
  simp only [EncodeToString, sextet_eq, Nat.shiftLeft_eq, List.cons_append, List.nil_append]
  rw [decodeQuantum_filled _ _ _ _ _ _ 2 _ (by omega) (by omega) (by omega)
    (collect_two_pad _ _ (by omega) (by omega) _)]
  simp only [ht, Quantum.mk.injEq, true_and]
  refine ⟨?_, by simp⟩
  show [_] = _
  rw [toByte_eq _ a (by omega)]

/-- The loop of `decodeQuantum` on newlines only. -/
theorem collect_newlines (tail : GoString) (ht : skipNewlines tail = []) (dbuf : List Nat) :
    collect tail 0 dbuf = .returned [] false := by
  induction tail with
  | nil => simp [collect]
  | cons c cs ih =>
    rw [skipNewlines] at ht
    by_cases hc : c.val = 10 ∨ c.val = 13
    · rw [if_pos hc] at ht
      have hm : decodeMap c = 0xff := by
        rcases hc with hc | hc
        · rw [show c = (10 : Byte) from Fin.ext hc]; decide
        · rw [show c = (13 : Byte) from Fin.ext hc]; decide
      rw [collect, if_neg (by simp [hm]), if_pos hc]
      exact ih ht
    · rw [if_neg hc] at ht
      simp at ht

/-- `Decode` on newlines only gives no bytes. -/
theorem decodeLoop_newlines (tail : GoString) (ht : skipNewlines tail = []) (fuel : Nat)
    (hf : fuel ≥ tail.length) : decodeLoop fuel tail = some (.ok []) := by
  cases tail with
  | nil => cases fuel <;> rfl
  | cons c cs =>
    cases fuel with
    | zero => simp at hf
    | succ f =>
      have hq : decodeQuantum (c :: cs) = ⟨[], [], false⟩ := by
        simp only [decodeQuantum, collect_newlines (c :: cs) ht]
      rw [decodeLoop]
      simp only [hq]
      cases f <;> rfl

/-- Decoding what `EncodeToString` produced, followed by any newlines, gives the
bytes back, in at most one round a byte. -/
theorem decodeLoop_EncodeToString (h : List Byte) (tail : GoString)
    (ht : skipNewlines tail = []) (fuel : Nat) (hf : fuel ≥ h.length + tail.length) :
    decodeLoop fuel (EncodeToString h ++ tail) = some (.ok h) := by
  induction h using EncodeToString.induct generalizing fuel with
  | case1 a b c rest ih =>
    cases fuel with
    | zero => simp at hf
    | succ f =>
      have hq := decodeQuantum_group a b c rest tail
      have hcons : ∃ x xs, EncodeToString (a :: b :: c :: rest) ++ tail = x :: xs := by
        simp [EncodeToString]
      obtain ⟨x, xs, hx⟩ := hcons
      rw [hx] at hq ⊢
      rw [decodeLoop]
      simp only [hq]
      rw [ih f (by simp only [List.length_cons] at hf; omega)]
      rfl
  | case2 a b =>
    cases fuel with
    | zero => simp at hf
    | succ f =>
      have hq := decodeQuantum_two a b tail ht
      have hcons : ∃ x xs, EncodeToString [a, b] ++ tail = x :: xs := by
        simp [EncodeToString]
      obtain ⟨x, xs, hx⟩ := hcons
      rw [hx] at hq ⊢
      rw [decodeLoop]
      simp only [hq]
      cases f <;> rfl
  | case3 a =>
    cases fuel with
    | zero => simp at hf
    | succ f =>
      have hq := decodeQuantum_one a tail ht
      have hcons : ∃ x xs, EncodeToString [a] ++ tail = x :: xs := by
        simp [EncodeToString]
      obtain ⟨x, xs, hx⟩ := hcons
      rw [hx] at hq ⊢
      rw [decodeLoop]
      simp only [hq]
      cases f <;> rfl
  | case4 =>
    simp only [EncodeToString, List.nil_append]
    exact decodeLoop_newlines tail ht fuel (by simpa using hf)

/-- `EncodeToString` does not shorten. -/
theorem length_le_EncodeToString (h : List Byte) : h.length ≤ (EncodeToString h).length := by
  induction h using EncodeToString.induct with
  | case1 a b c rest ih => simp only [EncodeToString, List.length_cons]; omega
  | case2 a b => simp [EncodeToString]
  | case3 a => simp [EncodeToString]
  | case4 => simp

/-! ## Theorems: the output path of `image-to-raw-data` -/

/-- The backwards scan of `filepath.Ext`: either it finds no dot before the
first separator, or it stops at the first dot it meets. -/
theorem extScan_spec (w : Bool) (before suffix : GoString) :
    (extScan w before suffix = [] ∧
      ∀ c ∈ before.takeWhile (fun c => !IsPathSeparator w c), c.val ≠ 0x2e) ∨
    (∃ t rest, before = t ++ (0x2e : Byte) :: rest ∧
      (∀ c ∈ t, c.val ≠ 0x2e ∧ IsPathSeparator w c = false) ∧
      extScan w before suffix = (0x2e : Byte) :: (t.reverse ++ suffix)) := by
  induction before generalizing suffix with
  | nil => left; simp [extScan]
  | cons c before ih =>
    by_cases hsep : IsPathSeparator w c = true
    · left
      simp [extScan, hsep]
    · by_cases hdot : c.val = 0x2e
      · right
        have hc : c = (0x2e : Byte) := Fin.ext hdot
        refine ⟨[], before, by simp [hc], by simp, ?_⟩
        rw [extScan, if_neg hsep, if_pos hdot, hc]
        rfl
      · rcases ih (c :: suffix) with ⟨h1, h2⟩ | ⟨t, rest, h1, h2, h3⟩
        · left
          refine ⟨by simp [extScan, hsep, hdot, h1], ?_⟩
          intro x hx
          simp only [List.takeWhile_cons, hsep, Bool.not_false, if_true] at hx
          rcases List.mem_cons.mp hx with rfl | hx
          · exact hdot
          · exact h2 x hx
        · right
          refine ⟨c :: t, rest, by simp [h1], ?_, ?_⟩
          · intro x hx
            rcases List.mem_cons.mp hx with rfl | hx
            · exact ⟨hdot, by simpa using hsep⟩
            · exact h2 x hx
          · simp [extScan, hsep, hdot, h3]

/-- `filepath.Ext(path)` is empty when the last path element has no dot, and
otherwise the suffix of the path from the last dot of that element. -/
theorem Ext_spec (w : Bool) (path : GoString) :
    (Ext w path = [] ∧ ∀ c ∈ lastElement w path, c.val ≠ 0x2e) ∨
    (∃ stem t, path = stem ++ (0x2e : Byte) :: t ∧ Ext w path = (0x2e : Byte) :: t ∧
      ∀ c ∈ t, c.val ≠ 0x2e ∧ IsPathSeparator w c = false) := by
  rcases extScan_spec w path.reverse [] with ⟨h1, h2⟩ | ⟨t, rest, h1, h2, h3⟩
  · left
    refine ⟨h1, ?_⟩
    intro c hc
    exact h2 c (by simpa [lastElement] using hc)
  · right
    refine ⟨rest.reverse, t.reverse, ?_, by simpa [Ext] using h3, ?_⟩
    · have := congrArg List.reverse h1
      simpa using this
    · intro c hc
      exact h2 c (by simpa using hc)

/-- `filepath.Ext(path)` is a suffix of the path. -/
theorem Ext_suffix (w : Bool) (path : GoString) : ∃ stem, path = stem ++ Ext w path := by
  rcases Ext_spec w path with ⟨h1, _⟩ | ⟨stem, t, h1, h2, _⟩
  · exact ⟨path, by simp [h1]⟩
  · exact ⟨stem, by rw [h2]; exact h1⟩

/-- The default output path: the extension replaced by `.data`. -/
theorem outputPath_default (w : Bool) (stem filePath : GoString)
    (h : filePath = stem ++ Ext w filePath) : outputPath w [] filePath = stem ++ dotData := by
  have hlen : filePath.length - (Ext w filePath).length = stem.length := by
    have := congrArg List.length h
    simp only [List.length_append] at this
    omega
  simp only [outputPath, ne_eq, not_true_eq_false, if_false, hlen]
  congr 1
  conv => lhs; rw [h]
  simp

/-- C9: the output path of `image-to-raw-data`.  A non-empty output option is
the output path.  Otherwise the output path is the input path with its
extension `filepath.Ext` removed and `.data` appended, the extension being the
suffix from the last dot of the last path element, empty if there is none; so
the default output path ends in `.data`, and it is the input path exactly when
the extension is `.data`.  The file written by the command is at that path. -/
theorem outputPath_spec (env : Env) (pathArg output : GoString) :
    (output ≠ [] → outputPath env.windows output pathArg = output) ∧
    (output = [] →
      (∃ stem, pathArg = stem ++ Ext env.windows pathArg ∧
        outputPath env.windows output pathArg = stem ++ dotData) ∧
      dotData <:+ outputPath env.windows output pathArg ∧
      (outputPath env.windows output pathArg = pathArg ↔ Ext env.windows pathArg = dotData)) ∧
    ((Ext env.windows pathArg = [] ∧ ∀ c ∈ lastElement env.windows pathArg, c.val ≠ 0x2e) ∨
      (∃ stem t, pathArg = stem ++ (0x2e : Byte) :: t ∧
        Ext env.windows pathArg = (0x2e : Byte) :: t ∧
        ∀ c ∈ t, c.val ≠ 0x2e ∧ IsPathSeparator env.windows c = false)) ∧
    (∀ p data, Event.writeFile p data ∈ (cmdImageToRawData env pathArg output).events →
      p = outputPath env.windows output pathArg) := by
  refine ⟨?_, ?_, Ext_spec env.windows pathArg, ?_⟩
  · intro h
    simp [outputPath, h]
  · intro h
    subst h
    obtain ⟨stem, hstem⟩ := Ext_suffix env.windows pathArg
    have hout := outputPath_default env.windows stem pathArg hstem
    refine ⟨⟨stem, hstem, hout⟩, ?_, ?_⟩
    · rw [hout]; exact List.suffix_append _ _
    · rw [hout]
      constructor
      · intro heq
        rw [hstem] at heq
        exact (List.append_cancel_left heq).symm
      · intro heq
        conv => rhs; rw [hstem, heq]
  · intro p data hmem
    unfold cmdImageToRawData at hmem
    simp only [readFilePath] at hmem
    split at hmem
    · simp at hmem
    · rename_i filePath heq
      have hfp : filePath = pathArg := by
        split at heq
        · simp at heq
        · simpa using heq.symm
      subst hfp
      split at hmem
      · simp at hmem
      · split at hmem
        · simp at hmem
        · split at hmem
          · simp only [List.mem_cons, reduceCtorEq, Event.writeFile.injEq, List.mem_nil_iff,
              or_false, false_or] at hmem
            exact hmem.1
          · simp only [List.mem_cons, reduceCtorEq, Event.writeFile.injEq, List.mem_nil_iff,
              or_false, false_or] at hmem
            exact hmem.1

/-- C9 at concrete inputs: `photo.png` gives `photo.data`, `x.data` gives
itself, and a dot in a directory name is not an extension. -/
theorem outputPath_examples :
    outputPath false [] [0x70, 0x2e, 0x70, 0x6e, 0x67] = [0x70, 0x2e, 0x64, 0x61, 0x74, 0x61] ∧
    outputPath false [] [0x78, 0x2e, 0x64, 0x61, 0x74, 0x61] =
      [0x78, 0x2e, 0x64, 0x61, 0x74, 0x61] ∧
    outputPath false [] [0x61, 0x2e, 0x62, 0x2f, 0x63] =
      [0x61, 0x2e, 0x62, 0x2f, 0x63, 0x2e, 0x64, 0x61, 0x74, 0x61] ∧
    outputPath false [0x6f] [0x70, 0x2e, 0x70, 0x6e, 0x67] = [0x6f] := by
  decide

/-! ## Theorems: the pixel data of `image-to-raw-data` -/

/-- A loop that fills consecutive blocks of `B` bytes from `base` on: the
length stays, the bytes outside the blocks stay, and block `k` holds `val k`. -/
theorem foldl_blocks (B base : Nat) (f : List Byte → Nat → List Byte) (val : Nat → Nat → Byte)
    (n : Nat) (pix : List Byte)
    (hlen : ∀ p k, (f p k).length = p.length)
    (hout : ∀ p k m, k < n → base + B * (k + 1) ≤ p.length →
      (m < base + B * k ∨ base + B * (k + 1) ≤ m) → (f p k)[m]? = p[m]?)
    (hin : ∀ p k t, k < n → t < B → base + B * (k + 1) ≤ p.length →
      (f p k)[base + B * k + t]? = some (val k t))
    (hfit : base + B * n ≤ pix.length) :
    ((List.range n).foldl f pix).length = pix.length ∧
    (∀ m, (m < base ∨ base + B * n ≤ m) → ((List.range n).foldl f pix)[m]? = pix[m]?) ∧
    (∀ k t, k < n → t < B → ((List.range n).foldl f pix)[base + B * k + t]? = some (val k t)) := by
  induction n with
  | zero => simp
  | succ n ih =>
    have hmul : B * (n + 1) = B * n + B := by rw [Nat.mul_succ]
    obtain ⟨ih1, ih2, ih3⟩ := ih
      (fun p k m hk => hout p k m (by omega))
      (fun p k t hk => hin p k t (by omega))
      (by omega)
    rw [List.range_succ, List.foldl_append]
    simp only [List.foldl_cons, List.foldl_nil]
    have hfit2 : base + B * (n + 1) ≤ ((List.range n).foldl f pix).length := by rw [ih1]; exact hfit
    refine ⟨by rw [hlen, ih1], ?_, ?_⟩
    · intro m hm
      rw [hout _ n m (by omega) hfit2 (by omega)]
      exact ih2 m (by omega)
    · intro k t hk ht
      by_cases hkn : k = n
      · subst hkn
        exact hin _ k t (by omega) ht hfit2
      · have hk2 : k < n := by omega
        have hle : B * (k + 1) ≤ B * n := Nat.mul_le_mul_left B (by omega)
        have hmul2 : B * (k + 1) = B * k + B := by rw [Nat.mul_succ]
        rw [hout _ n _ (by omega) hfit2 (by omega)]
        exact ih3 k t hk2 ht

/-- The 16-bit form `r | r<<8` of an 8-bit component, shifted back. -/
theorem widen_shift (r : Byte) : toByte ((r.val ||| r.val <<< 8) >>> 8) = r := by
  have hr := r.isLt
  rw [Nat.lor_comm, Nat.shiftLeft_eq, or_low (r.val * 2 ^ 8) r.val 8 (by omega) (by omega),
    Nat.shiftRight_eq_div_pow]
  simp only [Nat.reducePow]
  have h1 : (r.val * 256 + r.val) / 256 = r.val := by omega
  rw [h1]
  exact toByte_eq _ r (by omega)

/-- `color.RGBAModel.Convert` keeps the high byte of each 16-bit component. -/
theorem rgbaModel_eq (c : Color) :
    rgbaModel c = [toByte (c.RGBA16.1 >>> 8), toByte (c.RGBA16.2.1 >>> 8),
      toByte (c.RGBA16.2.2.1 >>> 8), toByte (c.RGBA16.2.2.2 >>> 8)] := by
  cases c with
  | RGBA r g b a => simp only [rgbaModel, Color.RGBA16, widen_shift]
  | NRGBA r g b a => rfl
  | Gray y => rfl
  | RGBA64 r g b a => rfl

theorem rgbaModel_length (c : Color) : (rgbaModel c).length = 4 := by
  rw [rgbaModel_eq]; rfl

/-- The four stores of `drawRGBA` write the colour as `color.RGBAModel`
converts it. -/
theorem storePixel_eq (pix : List Byte) (i : Int) (c : Color) :
    storePixel pix i c =
      (((pix.set i.toNat ((rgbaModel c).getD 0 0)).set (i.toNat + 1)
        ((rgbaModel c).getD 1 0)).set (i.toNat + 2) ((rgbaModel c).getD 2 0)).set
        (i.toNat + 3) ((rgbaModel c).getD 3 0) := by
  rw [rgbaModel_eq]
  simp only [storePixel, List.getD_cons_zero, List.getD_cons_succ]
  rw [Nat.mul_div_cancel _ (by norm_num : 0 < 65535), Nat.mul_div_cancel _ (by norm_num : 0 < 65535),
    Nat.mul_div_cancel _ (by norm_num : 0 < 65535), Nat.mul_div_cancel _ (by norm_num : 0 < 65535)]

theorem storePixel_length (pix : List Byte) (i : Int) (c : Color) :
    (storePixel pix i c).length = pix.length := by
  rw [storePixel_eq]; simp

theorem storePixel_out (pix : List Byte) (i : Int) (c : Color) (m : Nat)
    (h : m < i.toNat ∨ i.toNat + 4 ≤ m) : (storePixel pix i c)[m]? = pix[m]? := by
  rw [storePixel_eq, List.getElem?_set_ne (by omega), List.getElem?_set_ne (by omega),
    List.getElem?_set_ne (by omega), List.getElem?_set_ne (by omega)]

theorem storePixel_in (pix : List Byte) (i : Int) (c : Color) (t : Nat) (ht : t < 4)
    (h : i.toNat + 4 ≤ pix.length) :
    (storePixel pix i c)[i.toNat + t]? = some ((rgbaModel c).getD t 0) := by
  rw [storePixel_eq]
  rcases t with _ | _ | _ | _ | t
  · rw [List.getElem?_set_ne (by omega), List.getElem?_set_ne (by omega),
      List.getElem?_set_ne (by omega)]
    exact List.getElem?_set_self (by omega)
  · rw [List.getElem?_set_ne (by omega), List.getElem?_set_ne (by omega),
      List.getElem?_set_self (by simp; omega)]
  · rw [List.getElem?_set_ne (by omega), List.getElem?_set_self (by simp; omega)]
  · rw [List.getElem?_set_self (by simp; omega)]
  · omega

/-- One row of `drawRGBA`: `w` pixels from index `base` on. -/
theorem drawRow_spec (src : Image) (sx0 sy : Int) (w base : Nat) (pix : List Byte)
    (hfit : base + 4 * w ≤ pix.length) :
    (drawRow src sx0 sy w base pix).length = pix.length ∧
    (∀ m, (m < base ∨ base + 4 * w ≤ m) → (drawRow src sx0 sy w base pix)[m]? = pix[m]?) ∧
    (∀ x t, x < w → t < 4 → (drawRow src sx0 sy w base pix)[base + 4 * x + t]? =
      some ((rgbaModel (src.At (sx0 + x) sy)).getD t 0)) := by
  unfold drawRow
  apply foldl_blocks 4 base _ (fun x t => (rgbaModel (src.At (sx0 + (x : Int)) sy)).getD t 0) w pix
  · intro p k; exact storePixel_length _ _ _
  · intro p k m _ _ hm
    exact storePixel_out _ _ _ _ (by omega)
  · intro p k t _ ht hp
    have hi : ((base : Int) + 4 * (k : Int)).toNat = base + 4 * k := by omega
    have := storePixel_in p ((base : Int) + 4 * (k : Int)) (src.At (sx0 + k) sy) t ht (by omega)
    rw [hi] at this
    exact this
  · exact hfit

theorem drawRow_spec_length (src : Image) (sx0 sy : Int) (w : Nat) (i0 : Int)
    (pix : List Byte) : (drawRow src sx0 sy w i0 pix).length = pix.length := by
  unfold drawRow
  generalize List.range w = l
  induction l generalizing pix with
  | nil => rfl
  | cons k l ih => rw [List.foldl_cons, ih, storePixel_length]

/-- All rows of `drawRGBA`, for a rectangle of `w` by `h` pixels drawn from the
start of a buffer of stride `4*w`. -/
theorem drawRows_spec (src : Image) (sp : Point) (w h : Nat) (i0 stride : Int)
    (pix : List Byte) (hi0 : i0 = 0) (hs : stride = 4 * (w : Int))
    (hfit : 4 * w * h ≤ pix.length) :
    ((List.range h).foldl
      (fun pix (j : Nat) =>
        drawRow src sp.X (sp.Y + (j : Int)) w (i0 + (j : Int) * stride) pix)
      pix).length = pix.length ∧
    (∀ y x t, y < h → x < w → t < 4 →
      ((List.range h).foldl
        (fun pix (j : Nat) =>
          drawRow src sp.X (sp.Y + (j : Int)) w (i0 + (j : Int) * stride) pix)
        pix)[4 * (y * w + x) + t]? =
          some ((rgbaModel (src.At (sp.X + x) (sp.Y + y))).getD t 0)) := by
  subst hi0 hs
  have key := foldl_blocks (4 * w) 0
    (fun pix (j : Nat) =>
      drawRow src sp.X (sp.Y + (j : Int)) w ((0 : Int) + (j : Int) * (4 * (w : Int))) pix)
    (fun y i => (rgbaModel (src.At (sp.X + (i / 4 : Nat)) (sp.Y + y))).getD (i % 4) 0) h pix
    ?_ ?_ ?_ (by omega)
  · refine ⟨key.1, ?_⟩
    intro y x t hy hx ht
    have := key.2.2 y (4 * x + t) hy (by omega)
    have e1 : 0 + 4 * w * y + (4 * x + t) = 4 * (y * w + x) + t := by
      rw [Nat.mul_add, Nat.mul_assoc, Nat.mul_comm w y]; omega
    have e2 : (4 * x + t) / 4 = x := by omega
    have e3 : (4 * x + t) % 4 = t := by omega
    rw [e1] at this
    simp only [e2, e3] at this
    exact this
  · intro p j
    exact (drawRow_spec_length src sp.X (sp.Y + j) w _ p)
  · intro p j m hj hp hm
    have hi : ((0 : Int) + (j : Int) * (4 * (w : Int))) = ((4 * w * j : Nat) : Int) := by
      push_cast; ring
    simp only [hi]
    have hmul : 4 * w * (j + 1) = 4 * w * j + 4 * w := by rw [Nat.mul_succ]
    exact (drawRow_spec src sp.X (sp.Y + j) w (4 * w * j) p (by omega)).2.1 m (by omega)
  · intro p j t hj ht hp
    have hi : ((0 : Int) + (j : Int) * (4 * (w : Int))) = ((4 * w * j : Nat) : Int) := by
      push_cast; ring
    simp only [hi]
    have hmul : 4 * w * (j + 1) = 4 * w * j + 4 * w := by rw [Nat.mul_succ]
    have e1 : 0 + 4 * w * j + t = 4 * w * j + 4 * (t / 4) + t % 4 := by omega
    have hlt : t / 4 < w := by
      have := Nat.div_lt_of_lt_mul (show t < 4 * w from ht)
      exact this
    rw [e1]
    exact (drawRow_spec src sp.X (sp.Y + j) w (4 * w * j) p (by omega)).2.2 (t / 4) (t % 4)
      hlt (Nat.mod_lt _ (by norm_num))

/-- The conversion to `int` keeps every value of an `int`. -/
theorem intOfInt64_id (arch : Arch) (v : Int) (h0 : 0 ≤ v) (h1 : v ≤ maxInt arch) :
    intOfInt64 arch v = v := by
  cases arch <;> simp only [intOfInt64, maxInt, Arch.intSize] at * <;> omega

theorem maxInt_lt (arch : Arch) : maxInt arch < 2 ^ 64 := by
  cases arch <;> simp only [maxInt, Arch.intSize] <;> omega

/-- `image.NewRGBA` on a rectangle of `w` by `h` pixels whose buffer fits an
`int`: a zeroed buffer of `4*w*h` bytes with stride `4*w`. -/
theorem NewRGBA_eq (arch : Arch) (x0 y0 : Int) (w h : Nat) (hw : 4 * (w : Int) < 2 ^ 64)
    (hsize : 4 * (w : Int) * h ≤ maxInt arch) :
    NewRGBA arch ⟨⟨x0, y0⟩, ⟨x0 + w, y0 + h⟩⟩ =
      some ⟨List.replicate (4 * w * h) 0, 4 * (w : Int), ⟨⟨x0, y0⟩, ⟨x0 + w, y0 + h⟩⟩⟩ := by
  have hlt := maxInt_lt arch
  have hpos : (0 : Int) ≤ 4 * (w : Int) * h := by positivity
  have hdx : (⟨⟨x0, y0⟩, ⟨x0 + w, y0 + h⟩⟩ : Rectangle).Dx = w := by simp [Rectangle.Dx]
  have hdy : (⟨⟨x0, y0⟩, ⟨x0 + w, y0 + h⟩⟩ : Rectangle).Dy = h := by simp [Rectangle.Dy]
  have hm : mul3NonNeg arch 4 w h = 4 * (w : Int) * h := by
    unfold mul3NonNeg
    rw [if_neg (by omega), if_neg (by omega), if_neg (by omega),
      intOfInt64_id arch _ hpos hsize, if_neg (by omega)]
  unfold NewRGBA
  rw [hdx, hdy, hm, if_neg (by omega)]
  have : (4 * (w : Int) * h).toNat = 4 * w * h := by
    have : (4 * (w : Int) * h) = ((4 * w * h : Nat) : Int) := by push_cast; ring
    rw [this]; exact Int.toNat_ofNat _
  rw [this]

theorem Empty_ZR : ZR.Empty = true := by decide

/-- Cutting an empty rectangle gives an empty rectangle. -/
theorem Intersect_of_empty (r s : Rectangle) (h : r.Empty = true) :
    (r.Intersect s).Empty = true := by
  have hr1 : (⟨⟨if r.Min.X < s.Min.X then s.Min.X else r.Min.X,
      if r.Min.Y < s.Min.Y then s.Min.Y else r.Min.Y⟩,
     ⟨if r.Max.X > s.Max.X then s.Max.X else r.Max.X,
      if r.Max.Y > s.Max.Y then s.Max.Y else r.Max.Y⟩⟩ : Rectangle).Empty = true := by
    simp only [Rectangle.Empty, Bool.or_eq_true, decide_eq_true_eq] at h ⊢
    rcases h with h | h
    · left; split <;> split <;> omega
    · right; split <;> split <;> omega
  unfold Rectangle.Intersect
  simp only [hr1, if_true]
  exact Empty_ZR

/-- Cutting a rectangle that is not empty to itself changes nothing. -/
theorem Intersect_self (r : Rectangle) (h : r.Empty = false) : r.Intersect r = r := by
  unfold Rectangle.Intersect
  simp only [lt_self_iff_false, gt_iff_lt, if_false]
  rw [if_neg (by simp [h])]

/-- `draw.Draw(rgba, bounds, img, bounds.Min, draw.Src)` into the fresh buffer
of `image.NewRGBA(bounds)`: the buffer keeps its length, and the four bytes of
the pixel in column `x`, row `y` of the bounds are those of its colour. -/
theorem Draw_bounds (img : Image) (x0 y0 : Int) (w h : Nat) (pix : List Byte)
    (hb : img.Bounds = ⟨⟨x0, y0⟩, ⟨x0 + w, y0 + h⟩⟩) (hlen : pix.length = 4 * w * h) :
    (Draw ⟨pix, 4 * (w : Int), img.Bounds⟩ img.Bounds img img.Bounds.Min).Pix.length
      = 4 * w * h ∧
    ∀ x y t, x < w → y < h → t < 4 →
      (Draw ⟨pix, 4 * (w : Int), img.Bounds⟩ img.Bounds img img.Bounds.Min).Pix[
        4 * (y * w + x) + t]? = some ((rgbaModel (img.At (x0 + x) (y0 + y))).getD t 0) := by
  by_cases he : img.Bounds.Empty = true
  · have h1 := Intersect_of_empty img.Bounds img.Bounds he
    have h2 := Intersect_of_empty (img.Bounds.Intersect img.Bounds)
      (img.Bounds.Add (img.Bounds.Min.Sub img.Bounds.Min)) h1
    have hd : Draw ⟨pix, 4 * (w : Int), img.Bounds⟩ img.Bounds img img.Bounds.Min =
        ⟨pix, 4 * (w : Int), img.Bounds⟩ := by
      simp only [Draw, clip, h2, if_true]
    rw [hd]
    refine ⟨hlen, ?_⟩
    intro x y t hx hy _
    exfalso
    rw [hb] at he
    simp only [Rectangle.Empty, Bool.or_eq_true, decide_eq_true_eq] at he
    omega
  · have he2 : img.Bounds.Empty = false := by simpa using he
    have hadd : img.Bounds.Add (img.Bounds.Min.Sub img.Bounds.Min) = img.Bounds := by
      simp [Rectangle.Add, Point.Sub]
    have hd : Draw ⟨pix, 4 * (w : Int), img.Bounds⟩ img.Bounds img img.Bounds.Min =
        drawRGBA ⟨pix, 4 * (w : Int), img.Bounds⟩ img.Bounds img img.Bounds.Min := by
      simp only [Draw, clip, Intersect_self _ he2, hadd, he2, sub_self, add_zero]
      rfl
    rw [hd]
    have hdx : img.Bounds.Dx.toNat = w := by rw [hb]; simp [Rectangle.Dx]
    have hdy : img.Bounds.Dy.toNat = h := by rw [hb]; simp [Rectangle.Dy]
    have hmin : img.Bounds.Min = ⟨x0, y0⟩ := by rw [hb]
    have key := drawRows_spec img img.Bounds.Min w h
      ((⟨pix, 4 * (w : Int), img.Bounds⟩ : RGBAImage).PixOffset img.Bounds.Min.X img.Bounds.Min.Y)
      (4 * (w : Int)) pix (by simp [RGBAImage.PixOffset]) rfl (by omega)
    simp only [drawRGBA, hdx, hdy]
    refine ⟨by rw [key.1, hlen], ?_⟩
    intro x y t hx hy ht
    have := key.2 y x t hy hx ht
    rw [hmin] at this ⊢
    exact this

/-- The bytes `image-to-raw-data` writes for an image of `w` by `h` pixels whose
buffer fits an `int`: `4*w*h` bytes, the pixel in column `x`, row `y` of the
bounds at offset `4*(y*w+x)`, as `color.RGBAModel` converts it. -/
theorem rawData_spec (arch : Arch) (img : Image) (x0 y0 : Int) (w h : Nat)
    (hb : img.Bounds = ⟨⟨x0, y0⟩, ⟨x0 + w, y0 + h⟩⟩) (hw : 4 * (w : Int) < 2 ^ 64)
    (hsize : 4 * (w : Int) * h ≤ maxInt arch) :
    ∃ data, rawData arch img = some data ∧ data.length = 4 * w * h ∧
      ∀ x y t, x < w → y < h → t < 4 →
        data[4 * (y * w + x) + t]? = some ((rgbaModel (img.At (x0 + x) (y0 + y))).getD t 0) := by
  have hnew := NewRGBA_eq arch x0 y0 w h hw hsize
  rw [← hb] at hnew
  have hd := Draw_bounds img x0 y0 w h (List.replicate (4 * w * h) 0) hb (by simp)
  refine ⟨_, ?_, hd.1, hd.2⟩
  simp only [rawData, hnew]

/-- A component of a straight colour, premultiplied by alpha as `draw.Draw`
stores it. -/
theorem premultiplied_byte (r a : Byte) :
    (toByte (((r.val ||| r.val <<< 8) * a.val / 0xff) >>> 8)).val =
      r.val * 257 * a.val / 255 / 256 := by
  have hr := r.isLt; have ha := a.isLt
  have hp : r.val * a.val ≤ 255 * 255 := Nat.mul_le_mul (by omega) (by omega)
  rw [Nat.lor_comm, Nat.shiftLeft_eq, or_low (r.val * 2 ^ 8) r.val 8 (by omega) (by omega),
    Nat.shiftRight_eq_div_pow]
  have e : (r.val * 2 ^ 8 + r.val) * a.val = 257 * (r.val * a.val) := by ring
  have e2 : r.val * 257 * a.val = 257 * (r.val * a.val) := by ring
  rw [e, e2]
  simp only [toByte, Fin.ofNat, Nat.reducePow]
  generalize r.val * a.val = p at hp
  omega

/-- The bytes of a straight colour as `color.RGBAModel` converts it: the colour
components premultiplied by alpha, and alpha. -/
theorem rgbaModel_NRGBA (r g b a : Byte) :
    ∃ R G B : Byte, rgbaModel (.NRGBA r g b a) = [R, G, B, a] ∧
      R.val = r.val * 257 * a.val / 255 / 256 ∧
      G.val = g.val * 257 * a.val / 255 / 256 ∧
      B.val = b.val * 257 * a.val / 255 / 256 := by
  refine ⟨_, _, _, ?_, premultiplied_byte r a, premultiplied_byte g a, premultiplied_byte b a⟩
  rw [rgbaModel_eq]
  simp only [Color.RGBA16, widen_shift]

theorem getD_eq_getElem? (l : List Byte) (t : Nat) (h : t < l.length) :
    some (l.getD t 0) = l[t]? := by
  rw [List.getD_eq_getElem?_getD, List.getElem?_eq_getElem h]
  rfl

/-- The run of `image-to-raw-data` on an image that can be read and whose
buffer fits an `int`. -/
theorem cmdImageToRawData_events (env : Env) (pathArg output : GoString) (img : Image)
    (x0 y0 : Int) (w h : Nat) (hp : pathArg ≠ []) (hread : env.osOpen pathArg = .ok (.ok img))
    (hb : img.Bounds = ⟨⟨x0, y0⟩, ⟨x0 + w, y0 + h⟩⟩) (hw : 4 * (w : Int) ≤ maxInt env.arch)
    (hsize : 4 * (w : Int) * h ≤ maxInt env.arch) :
    ∃ data, rawData env.arch img = some data ∧
      (cmdImageToRawData env pathArg output).events =
        [.openFile pathArg, .writeFile (outputPath env.windows output pathArg) data] ∧
      data.length = 4 * w * h ∧
      ∀ x y t, x < w → y < h → t < 4 →
        data[4 * (y * w + x) + t]? = (rgbaModel (img.At (x0 + x) (y0 + y)))[t]? := by
  obtain ⟨data, hd, hlen, hpix⟩ := rawData_spec env.arch img x0 y0 w h hb
    (lt_of_le_of_lt hw (maxInt_lt env.arch)) hsize
  refine ⟨data, hd, ?_, hlen, ?_⟩
  · simp only [cmdImageToRawData, readFilePath, if_neg hp, readImage, hread, readFile, hd]
    cases env.osWriteFile (outputPath env.windows output pathArg) data <;> rfl
  · intro x y t hx hy ht
    rw [hpix x y t hx hy ht]
    exact getD_eq_getElem? _ _ (by rw [rgbaModel_length]; exact ht)

/-- C7: the file written by `image-to-raw-data` is the RGBA pixel buffer in
row-major order, four bytes a pixel: for an image that can be read, with
bounds of width `w` and height `h` (a row of `4*w` bytes and the buffer of
`4*w*h` bytes fitting an `int`, or `image.NewRGBA` panics), the command
opens the image and writes one file of exactly `4*w*h` bytes, and the bytes at
offsets `4*(y*w+x)` to `4*(y*w+x)+3` are the R, G, B, A components, in the
colour model of `image.RGBA`, of the pixel in column `x`, row `y` counted from
the minimum of the bounds. -/
theorem cmdImageToRawData_layout (env : Env) (pathArg output : GoString) (img : Image)
    (x0 y0 : Int) (w h : Nat) (hp : pathArg ≠ []) (hread : env.osOpen pathArg = .ok (.ok img))
    (hb : img.Bounds = ⟨⟨x0, y0⟩, ⟨x0 + w, y0 + h⟩⟩) (hw : 4 * (w : Int) ≤ maxInt env.arch)
    (hsize : 4 * (w : Int) * h ≤ maxInt env.arch) :
    ∃ data, (cmdImageToRawData env pathArg output).events =
        [.openFile pathArg, .writeFile (outputPath env.windows output pathArg) data] ∧
      data.length = 4 * w * h ∧
      ∀ x y, x < w → y < h →
        [data[4 * (y * w + x)]?, data[4 * (y * w + x) + 1]?, data[4 * (y * w + x) + 2]?,
          data[4 * (y * w + x) + 3]?] = (rgbaModel (img.At (x0 + x) (y0 + y))).map some := by
  obtain ⟨data, _, hev, hlen, hpix⟩ :=
    cmdImageToRawData_events env pathArg output img x0 y0 w h hp hread hb hw hsize
  refine ⟨data, hev, hlen, ?_⟩
  intro x y hx hy
  have h0 := hpix x y 0 hx hy (by omega)
  have h1 := hpix x y 1 hx hy (by omega)
  have h2 := hpix x y 2 hx hy (by omega)
  have h3 := hpix x y 3 hx hy (by omega)
  rw [Nat.add_zero] at h0
  rw [h0, h1, h2, h3, rgbaModel_eq]
  rfl

/-- C7 at a concrete input: the 2×2 image `fourPixels`, read from the path `a`,
is written as 16 bytes to `a.data`. -/
theorem cmdImageToRawData_layout_witness :
    ∃ data, (cmdImageToRawData fourPixelsEnv [0x61] []).events =
        [.openFile [0x61], .writeFile (outputPath false [] [0x61]) data] ∧
      data.length = 4 * 2 * 2 :=
  (cmdImageToRawData_layout fourPixelsEnv [0x61] [] fourPixels 3 5 2 2
    (by decide) rfl rfl (by simp [maxInt, Arch.intSize, fourPixelsEnv, exampleEnv])
    (by simp [maxInt, Arch.intSize, fourPixelsEnv, exampleEnv])).imp fun _ h => ⟨h.1, h.2.1⟩

/-- The run of `image-to-raw-data` on `fourPixels`, evaluated: the 16 bytes
written to `a.data`. -/
theorem cmdImageToRawData_fourPixels :
    (cmdImageToRawData fourPixelsEnv [0x61] []).events =
      [.openFile [0x61], .writeFile [0x61, 0x2e, 0x64, 0x61, 0x74, 0x61]
        [128, 0, 0, 128, 1, 2, 3, 4, 128, 0, 0, 128, 77, 77, 77, 255]] := rfl

/-- C8 fails as stated: the pixel of straight colour (255, 0, 0, 128) is not
written as the bytes 255, 0, 0, 128 but premultiplied, as 128, 0, 0, 128. -/
theorem cmdImageToRawData_straight_counterexample :
    translucentRed.At 0 0 = .NRGBA 255 0 0 128 ∧
    (cmdImageToRawData translucentEnv [0x61] []).events =
      [.openFile [0x61], .writeFile [0x61, 0x2e, 0x64, 0x61, 0x74, 0x61] [128, 0, 0, 128]] ∧
    ([128, 0, 0, 128] : List Byte) ≠ [255, 0, 0, 128] :=
  ⟨rfl, rfl, by decide⟩

/-- C8, amended: the pixel buffer written by `image-to-raw-data` holds
alpha-premultiplied components, as `image.RGBA` does: for a source pixel of
straight colour `(r, g, b, a)` the four bytes written are `(R, G, B, a)` with
`R = ⌊r·257·a/255⌋ >> 8` and likewise `G` and `B`; they are `(r, g, b, a)`
when `a = 255`. -/
theorem cmdImageToRawData_premultiplied (env : Env) (pathArg output : GoString) (img : Image)
    (x0 y0 : Int) (w h : Nat) (hp : pathArg ≠ []) (hread : env.osOpen pathArg = .ok (.ok img))
    (hb : img.Bounds = ⟨⟨x0, y0⟩, ⟨x0 + w, y0 + h⟩⟩) (hw : 4 * (w : Int) ≤ maxInt env.arch)
    (hsize : 4 * (w : Int) * h ≤ maxInt env.arch) :
    ∃ data, (cmdImageToRawData env pathArg output).events =
        [.openFile pathArg, .writeFile (outputPath env.windows output pathArg) data] ∧
      ∀ x y (r g b a : Byte), x < w → y < h → img.At (x0 + x) (y0 + y) = .NRGBA r g b a →
        ∃ R G B : Byte,
          [data[4 * (y * w + x)]?, data[4 * (y * w + x) + 1]?, data[4 * (y * w + x) + 2]?,
            data[4 * (y * w + x) + 3]?] = [some R, some G, some B, some a] ∧
          R.val = r.val * 257 * a.val / 255 / 256 ∧
          G.val = g.val * 257 * a.val / 255 / 256 ∧
          B.val = b.val * 257 * a.val / 255 / 256 ∧
          (a.val = 255 → R = r ∧ G = g ∧ B = b) := by
  obtain ⟨data, _, hev, hlen, hpix⟩ :=
    cmdImageToRawData_events env pathArg output img x0 y0 w h hp hread hb hw hsize
  refine ⟨data, hev, ?_⟩
  intro x y r g b a hx hy hc
  obtain ⟨R, G, B, hm, hR, hG, hB⟩ := rgbaModel_NRGBA r g b a
  have h0 := hpix x y 0 hx hy (by omega)
  have h1 := hpix x y 1 hx hy (by omega)
  have h2 := hpix x y 2 hx hy (by omega)
  have h3 := hpix x y 3 hx hy (by omega)
  rw [Nat.add_zero] at h0
  rw [hc, hm] at h0 h1 h2 h3
  refine ⟨R, G, B, by rw [h0, h1, h2, h3]; rfl, hR, hG, hB, ?_⟩
  intro ha
  have hr := r.isLt; have hg := g.isLt; have hb := b.isLt
  rw [ha] at hR hG hB
  exact ⟨Fin.ext (by omega), Fin.ext (by omega), Fin.ext (by omega)⟩

/-- C8, amended, at a concrete input: the pixel of `translucentRed`. -/
theorem cmdImageToRawData_premultiplied_witness :
    ∃ data, (cmdImageToRawData translucentEnv [0x61] []).events =
      [.openFile [0x61], .writeFile (outputPath false [] [0x61]) data] :=
  (cmdImageToRawData_premultiplied translucentEnv [0x61] [] translucentRed 0 0 1 1
    (by decide) rfl rfl (by simp [maxInt, Arch.intSize, translucentEnv, exampleEnv])
    (by simp [maxInt, Arch.intSize, translucentEnv, exampleEnv])).imp fun _ h => h.1

/-! ## Theorems: `encode-image` -/

/-- The test `stat.Mode()&os.ModeCharDevice == 0` holds exactly when the mode is
not that of a character device. -/
theorem mode_and_ModeCharDevice (mode : Nat) :
    mode &&& ModeCharDevice = 0 ↔ isCharDevice mode = false := by
  have hm : ModeCharDevice = 2 ^ 21 := by decide
  rw [hm, Nat.and_two_pow, isCharDevice]
  cases mode.testBit 21 <;> simp

/-- A run of `encode-image` whose standard input is not a character device
and cannot be read as an image. -/
theorem cmdEncodeImage_pipe_err (lib : Codec) (env : Env) (pathArg : GoString) (mode : Nat)
    (e : Error) (hstat : env.stdinStat = some mode) (hdev : isCharDevice mode = false)
    (hr : readFile env.stdinDecode = .error e) :
    cmdEncodeImage lib env pathArg =
      ⟨[.readStdin], .fatal "cannot read image from pipe: %v" [.err e]⟩ := by
  simp only [cmdEncodeImage, hstat, if_pos ((mode_and_ModeCharDevice mode).mpr hdev), hr]

/-- A run of `encode-image` whose standard input is not a character device
and carries an image. -/
theorem cmdEncodeImage_pipe_ok (lib : Codec) (env : Env) (pathArg : GoString) (mode : Nat)
    (img : Image) (hstat : env.stdinStat = some mode) (hdev : isCharDevice mode = false)
    (hr : readFile env.stdinDecode = .ok img) :
    cmdEncodeImage lib env pathArg =
      ⟨[.readStdin, .encodeImage img,
        .stdout (EncodeToString (lib.EncodeImage img) ++ [10])], .returned⟩ := by
  simp only [cmdEncodeImage, hstat, if_pos ((mode_and_ModeCharDevice mode).mpr hdev), hr]

/-- A run of `encode-image` on a terminal without the argument `path`. -/
theorem cmdEncodeImage_file_missing (lib : Codec) (env : Env) (mode : Nat)
    (hstat : env.stdinStat = some mode) (hdev : isCharDevice mode = true) :
    cmdEncodeImage lib env [] = ⟨[], .fatal "missing required argument: path" []⟩ := by
  have hne : ¬ (mode &&& ModeCharDevice = 0) := by
    rw [mode_and_ModeCharDevice, hdev]; simp
  simp only [cmdEncodeImage, hstat, if_neg hne, readFilePath, if_true]

/-- A run of `encode-image` on a terminal whose file cannot be read as an
image. -/
theorem cmdEncodeImage_file_err (lib : Codec) (env : Env) (pathArg : GoString) (mode : Nat)
    (e : Error) (hstat : env.stdinStat = some mode) (hdev : isCharDevice mode = true)
    (hp : pathArg ≠ []) (hr : readImage env pathArg = .error e) :
    cmdEncodeImage lib env pathArg =
      ⟨[.openFile pathArg],
        .fatal "cannot read image from %q: %v" [.str pathArg, .err e]⟩ := by
  have hne : ¬ (mode &&& ModeCharDevice = 0) := by
    rw [mode_and_ModeCharDevice, hdev]; simp
  simp only [cmdEncodeImage, hstat, if_neg hne, readFilePath, if_neg hp, hr]

/-- A run of `encode-image` on a terminal whose file holds an image. -/
theorem cmdEncodeImage_file_ok (lib : Codec) (env : Env) (pathArg : GoString) (mode : Nat)
    (img : Image) (hstat : env.stdinStat = some mode) (hdev : isCharDevice mode = true)
    (hp : pathArg ≠ []) (hr : readImage env pathArg = .ok img) :
    cmdEncodeImage lib env pathArg =
      ⟨[.openFile pathArg, .encodeImage img,
        .stdout (EncodeToString (lib.EncodeImage img) ++ [10])], .returned⟩ := by
  have hne : ¬ (mode &&& ModeCharDevice = 0) := by
    rw [mode_and_ModeCharDevice, hdev]; simp
  simp only [cmdEncodeImage, hstat, if_neg hne, readFilePath, if_neg hp, hr]

/-- The five ways a run of `encode-image` can go. -/
theorem cmdEncodeImage_cases (lib : Codec) (env : Env) (pathArg : GoString) :
    cmdEncodeImage lib env pathArg = ⟨[], .panicked⟩ ∨
    cmdEncodeImage lib env pathArg = ⟨[], .fatal "missing required argument: path" []⟩ ∨
    (∃ e, cmdEncodeImage lib env pathArg =
      ⟨[.readStdin], .fatal "cannot read image from pipe: %v" [.err e]⟩) ∨
    (∃ e, cmdEncodeImage lib env pathArg =
      ⟨[.openFile pathArg], .fatal "cannot read image from %q: %v" [.str pathArg, .err e]⟩) ∨
    (∃ img first, cmdEncodeImage lib env pathArg =
      ⟨[first, .encodeImage img,
        .stdout (EncodeToString (lib.EncodeImage img) ++ [10])], .returned⟩ ∧
      (first = .readStdin ∨ first = .openFile pathArg)) := by
  rcases hstat : env.stdinStat with _ | mode
  · left; simp only [cmdEncodeImage, hstat]
  · rcases hdev : isCharDevice mode with _ | _
    · rcases hr : readFile env.stdinDecode with e | img
      · right; right; left
        exact ⟨e, cmdEncodeImage_pipe_err lib env pathArg mode e hstat hdev hr⟩
      · right; right; right; right
        exact ⟨img, _, cmdEncodeImage_pipe_ok lib env pathArg mode img hstat hdev hr, Or.inl rfl⟩
    · by_cases hp : pathArg = []
      · right; left
        subst hp
        exact cmdEncodeImage_file_missing lib env mode hstat hdev
      · rcases hr : readImage env pathArg with e | img
        · right; right; right; left
          exact ⟨e, cmdEncodeImage_file_err lib env pathArg mode e hstat hdev hp hr⟩
        · right; right; right; right
          exact ⟨img, _, cmdEncodeImage_file_ok lib env pathArg mode img hstat hdev hp hr,
            Or.inr rfl⟩

/-- Every run of `encode-image` that calls `EncodeImage` on an image returns
normally and prints one line, the base64 of the bytes `EncodeImage` returned
followed by a newline. -/
theorem cmdEncodeImage_encoded (lib : Codec) (env : Env) (pathArg : GoString) (img : Image)
    (h : Event.encodeImage img ∈ (cmdEncodeImage lib env pathArg).events) :
    (cmdEncodeImage lib env pathArg).exit = .returned ∧
    stdoutOf (cmdEncodeImage lib env pathArg).events =
      [EncodeToString (lib.EncodeImage img) ++ [10]] := by
  rcases cmdEncodeImage_cases lib env pathArg with hc | hc | ⟨e, hc⟩ | ⟨e, hc⟩ |
    ⟨img2, first, hc, hf⟩
  · rw [hc] at h; simp at h
  · rw [hc] at h; simp at h
  · rw [hc] at h; simp at h
  · rw [hc] at h; simp at h
  · rw [hc] at h ⊢
    have : img = img2 := by
      rcases hf with hf | hf <;> subst hf <;> simpa using h
    subst this
    rcases hf with hf | hf <;> subst hf <;> exact ⟨rfl, rfl⟩

/-- Every line `encode-image` prints is the base64 of what `EncodeImage`
returned for the image the run read, followed by a newline. -/
theorem cmdEncodeImage_stdout (lib : Codec) (env : Env) (pathArg : GoString) (line : GoString)
    (h : line ∈ stdoutOf (cmdEncodeImage lib env pathArg).events) :
    ∃ img, Event.encodeImage img ∈ (cmdEncodeImage lib env pathArg).events ∧
      line = EncodeToString (lib.EncodeImage img) ++ [10] := by
  rcases cmdEncodeImage_cases lib env pathArg with hc | hc | ⟨e, hc⟩ | ⟨e, hc⟩ |
    ⟨img2, first, hc, hf⟩
  · rw [hc] at h; simp [stdoutOf] at h
  · rw [hc] at h; simp [stdoutOf] at h
  · rw [hc] at h; simp [stdoutOf] at h
  · rw [hc] at h; simp [stdoutOf] at h
  · rw [hc] at h ⊢
    refine ⟨img2, by simp, ?_⟩
    rcases hf with hf | hf <;> subst hf <;> simpa [stdoutOf] using h

/-- C5 fails as stated: `encode-image` takes a single value from `EncodeImage`
and prints it; on the image of width 0 and height 0, whatever codec of that
type is used, the run returns normally with a printed line, and no failure is
reported. -/
theorem cmdEncodeImage_invalid_counterexample :
    emptyImage.Bounds.Dx ≤ 0 ∧ emptyImage.Bounds.Dy ≤ 0 ∧
    ¬ ∃ lib : Codec, (cmdEncodeImage lib emptyPipeEnv []).exit ≠ .returned ∨
      stdoutOf (cmdEncodeImage lib emptyPipeEnv []).events = [] := by
  refine ⟨by decide, by decide, ?_⟩
  rintro ⟨lib, h | h⟩
  · exact h rfl
  · simp [cmdEncodeImage, emptyPipeEnv, exampleEnv, ModeCharDevice, readFile, stdoutOf] at h

/-- C5, amended: `EncodeImage`, as `encode-image` calls it, returns a hash and
no error: for every image the command has read, whatever its width and height,
the run prints the base64 of the bytes `EncodeImage` returns and ends
normally. -/
theorem cmdEncodeImage_no_failure_path (lib : Codec) (env : Env) (pathArg : GoString)
    (img : Image) (h : Event.encodeImage img ∈ (cmdEncodeImage lib env pathArg).events) :
    (cmdEncodeImage lib env pathArg).exit = .returned ∧
    stdoutOf (cmdEncodeImage lib env pathArg).events =
      [EncodeToString (lib.EncodeImage img) ++ [10]] :=
  cmdEncodeImage_encoded lib env pathArg img h

/-- C5, amended, at a concrete input: the image of width 0 and height 0 read
from a pipe. -/
theorem cmdEncodeImage_no_failure_path_witness :
    (cmdEncodeImage exampleCodec emptyPipeEnv []).exit = .returned ∧
    stdoutOf (cmdEncodeImage exampleCodec emptyPipeEnv []).events =
      [EncodeToString [1, 2, 3] ++ [10]] :=
  cmdEncodeImage_no_failure_path exampleCodec emptyPipeEnv [] emptyImage
    (List.mem_cons_of_mem _ (List.mem_cons_self _ _))

/-- C6: `encode-image` is deterministic: two runs that read the same image,
from a pipe or from a file of any name on any machine, print the same single
line, the base64 of the hash `EncodeImage` gives that image and a newline; the
line depends on nothing but the image. -/
theorem cmdEncodeImage_deterministic (lib : Codec) (env1 env2 : Env)
    (path1 path2 : GoString) (img : Image)
    (h1 : Event.encodeImage img ∈ (cmdEncodeImage lib env1 path1).events)
    (h2 : Event.encodeImage img ∈ (cmdEncodeImage lib env2 path2).events) :
    stdoutOf (cmdEncodeImage lib env1 path1).events =
      [EncodeToString (lib.EncodeImage img) ++ [10]] ∧
    stdoutOf (cmdEncodeImage lib env2 path2).events =
      stdoutOf (cmdEncodeImage lib env1 path1).events := by
  rw [(cmdEncodeImage_encoded lib env1 path1 img h1).2,
    (cmdEncodeImage_encoded lib env2 path2 img h2).2]
  exact ⟨rfl, rfl⟩

/-- C6 at a concrete input: `emptyImage` read from a pipe and read from the file
`a` gives the same printed line. -/
theorem cmdEncodeImage_deterministic_witness :
    stdoutOf (cmdEncodeImage exampleCodec emptyPipeEnv []).events =
      [EncodeToString [1, 2, 3] ++ [10]] ∧
    stdoutOf (cmdEncodeImage exampleCodec emptyFileEnv [0x61]).events =
      stdoutOf (cmdEncodeImage exampleCodec emptyPipeEnv []).events :=
  cmdEncodeImage_deterministic exampleCodec emptyPipeEnv emptyFileEnv [] [0x61] emptyImage
    (List.mem_cons_of_mem _ (List.mem_cons_self _ _))
    (List.mem_cons_of_mem _ (List.mem_cons_self _ _))

/-! ## Theorems: input selection and the base64 transport -/

/-- C10: input selection of `encode-image` (given that `os.Stdin.Stat`
succeeds).  The image is read from standard input if and only if standard
input is not a character device; the run then does not depend on the argument
`path` and opens no file.  Otherwise the path is required: an empty path is
the fatal error "missing required argument: path" with no file opened, and a
non-empty path is opened.  In both cases, when the input cannot be read or
decoded the run ends in a fatal error and prints nothing. -/
theorem cmdEncodeImage_input_selection (lib : Codec) (env : Env) (pathArg : GoString)
    (mode : Nat) (hstat : env.stdinStat = some mode) :
    (Event.readStdin ∈ (cmdEncodeImage lib env pathArg).events ↔ isCharDevice mode = false) ∧
    (isCharDevice mode = false →
      (∀ other, cmdEncodeImage lib env other = cmdEncodeImage lib env pathArg) ∧
      ∀ p, Event.openFile p ∉ (cmdEncodeImage lib env pathArg).events) ∧
    (isCharDevice mode = true → pathArg = [] →
      (cmdEncodeImage lib env pathArg).events = [] ∧
      (cmdEncodeImage lib env pathArg).exit = .fatal "missing required argument: path" []) ∧
    (isCharDevice mode = true → pathArg ≠ [] →
      (cmdEncodeImage lib env pathArg).events.head? = some (.openFile pathArg)) ∧
    (isCharDevice mode = false → (∃ e, env.stdinDecode = .error e) →
      stdoutOf (cmdEncodeImage lib env pathArg).events = [] ∧
      ∃ format args, (cmdEncodeImage lib env pathArg).exit = .fatal format args) ∧
    (isCharDevice mode = true →
      ((∃ e, env.osOpen pathArg = .error e) ∨ (∃ e, env.osOpen pathArg = .ok (.error e))) →
      stdoutOf (cmdEncodeImage lib env pathArg).events = [] ∧
      ∃ format args, (cmdEncodeImage lib env pathArg).exit = .fatal format args) := by
  have hpipe : isCharDevice mode = false →
      ∀ p, (∃ e, cmdEncodeImage lib env p =
          ⟨[.readStdin], .fatal "cannot read image from pipe: %v" [.err e]⟩ ∧
          readFile env.stdinDecode = .error e) ∨
        (∃ img, cmdEncodeImage lib env p = ⟨[.readStdin, .encodeImage img,
          .stdout (EncodeToString (lib.EncodeImage img) ++ [10])], .returned⟩) := by
    intro hdev p
    rcases hr : readFile env.stdinDecode with e | img
    · exact Or.inl ⟨e, cmdEncodeImage_pipe_err lib env p mode e hstat hdev hr, rfl⟩
    · exact Or.inr ⟨img, cmdEncodeImage_pipe_ok lib env p mode img hstat hdev hr⟩
  have hfile : isCharDevice mode = true → pathArg ≠ [] →
      (∃ e, cmdEncodeImage lib env pathArg = ⟨[.openFile pathArg],
          .fatal "cannot read image from %q: %v" [.str pathArg, .err e]⟩ ∧
          readImage env pathArg = .error e) ∨
        (∃ img, cmdEncodeImage lib env pathArg = ⟨[.openFile pathArg, .encodeImage img,
          .stdout (EncodeToString (lib.EncodeImage img) ++ [10])], .returned⟩ ∧
          readImage env pathArg = .ok img) := by
    intro hdev hp
    rcases hr : readImage env pathArg with e | img
    · exact Or.inl ⟨e, cmdEncodeImage_file_err lib env pathArg mode e hstat hdev hp hr, rfl⟩
    · exact Or.inr ⟨img, cmdEncodeImage_file_ok lib env pathArg mode img hstat hdev hp hr, rfl⟩
  have hmissing : isCharDevice mode = true → pathArg = [] →
      cmdEncodeImage lib env pathArg = ⟨[], .fatal "missing required argument: path" []⟩ := by
    intro hdev hp
    subst hp
    exact cmdEncodeImage_file_missing lib env mode hstat hdev
  refine ⟨⟨?_, ?_⟩, ?_, ?_, ?_, ?_, ?_⟩
  · intro hmem
    rcases hdev : isCharDevice mode with _ | _
    · rfl
    · exfalso
      by_cases hp : pathArg = []
      · rw [hmissing hdev hp] at hmem; simp at hmem
      · rcases hfile hdev hp with ⟨e, hc, _⟩ | ⟨img, hc, _⟩ <;> rw [hc] at hmem <;> simp at hmem
  · intro hdev
    rcases hpipe hdev pathArg with ⟨e, hc, _⟩ | ⟨img, hc⟩ <;> rw [hc] <;> simp
  · intro hdev
    constructor
    · intro other
      rcases hr : readFile env.stdinDecode with e | img
      · rw [cmdEncodeImage_pipe_err lib env other mode e hstat hdev hr,
          cmdEncodeImage_pipe_err lib env pathArg mode e hstat hdev hr]
      · rw [cmdEncodeImage_pipe_ok lib env other mode img hstat hdev hr,
          cmdEncodeImage_pipe_ok lib env pathArg mode img hstat hdev hr]
    · intro p
      rcases hpipe hdev pathArg with ⟨e, hc, _⟩ | ⟨img, hc⟩ <;> rw [hc] <;> simp
  · intro hdev hp
    rw [hmissing hdev hp]
    exact ⟨rfl, rfl⟩
  · intro hdev hp
    rcases hfile hdev hp with ⟨e, hc, _⟩ | ⟨img, hc, _⟩ <;> rw [hc] <;> rfl
  · rintro hdev ⟨e, he⟩
    rcases hpipe hdev pathArg with ⟨e2, hc, _⟩ | ⟨img, hc⟩
    · rw [hc]; exact ⟨rfl, _, _, rfl⟩
    · exfalso
      have hr : readFile env.stdinDecode = .error ("cannot decode file: " ++ e) := by
        simp only [readFile, he]
      have hok := cmdEncodeImage_pipe_err lib env pathArg mode _ hstat hdev hr
      rw [hok] at hc
      simp at hc
  · intro hdev hfail
    by_cases hp : pathArg = []
    · rw [hmissing hdev hp]; exact ⟨rfl, _, _, rfl⟩
    · rcases hfile hdev hp with ⟨e2, hc, _⟩ | ⟨img, hc, hr⟩
      · rw [hc]; exact ⟨rfl, _, _, rfl⟩
      · exfalso
        rcases hfail with ⟨e, he⟩ | ⟨e, he⟩
        · simp [readImage, he] at hr
        · simp [readImage, he, readFile] at hr

/-- C10 at a concrete input: on a terminal, `encode-image` without a path is
the fatal error and nothing else. -/
theorem cmdEncodeImage_input_selection_witness :
    exampleEnv.stdinStat = some ModeCharDevice ∧ isCharDevice ModeCharDevice = true ∧
    (cmdEncodeImage exampleCodec exampleEnv []).events = [] ∧
    (cmdEncodeImage exampleCodec exampleEnv []).exit =
      .fatal "missing required argument: path" [] :=
  ⟨rfl, by decide,
    (cmdEncodeImage_input_selection exampleCodec exampleEnv [] ModeCharDevice rfl).2.2.1
      (by decide) rfl⟩

/-- C3: the base64 transport of the hash is lossless.  For every byte sequence
`h`, `DecodeString` of `EncodeToString h`, with or without a trailing newline,
succeeds with exactly `h`.  So every line `encode-image` prints decodes to the
bytes `EncodeImage` returned, and `decode-image`, given that text as its hash
argument, calls the decoder with those bytes. -/
theorem base64_transport_lossless (lib : Codec) (env : Env) (pathArg : GoString)
    (h : List Byte) :
    DecodeString (EncodeToString h) = .ok h ∧
    DecodeString (EncodeToString h ++ [10]) = .ok h ∧
    (∀ line ∈ stdoutOf (cmdEncodeImage lib env pathArg).events,
      ∃ img, Event.encodeImage img ∈ (cmdEncodeImage lib env pathArg).events ∧
        DecodeString line = .ok (lib.EncodeImage img)) ∧
    (∀ (env2 : Env) (out : GoString) (size : Option GoString) (cfg : DecodingCfg),
      out ≠ [] → sizeCfg env2.arch size = .ok cfg →
      (cmdDecodeImage lib env2 out (EncodeToString h) size).events.head? =
        some (.decodeImage h cfg) ∧
      (cmdDecodeImage lib env2 out (EncodeToString h ++ [10]) size).events.head? =
        some (.decodeImage h cfg)) := by
  have hround : ∀ h : List Byte, DecodeString (EncodeToString h) = .ok h ∧
      DecodeString (EncodeToString h ++ [10]) = .ok h := by
    intro h
    have hl := length_le_EncodeToString h
    constructor
    · have := decodeLoop_EncodeToString h [] rfl (EncodeToString h).length (by simpa using hl)
      rw [List.append_nil] at this
      simp only [DecodeString, this]
    · have := decodeLoop_EncodeToString h [10] (by decide) (EncodeToString h ++ [10]).length
        (by simp only [List.length_append]; omega)
      simp only [DecodeString, this]
  refine ⟨(hround h).1, (hround h).2, ?_, ?_⟩
  · intro line hline
    obtain ⟨img, himg, hl⟩ := cmdEncodeImage_stdout lib env pathArg line hline
    exact ⟨img, himg, by rw [hl]; exact (hround _).2⟩
  · intro env2 out size cfg hout hcfg
    obtain ⟨t1, h1, _, _⟩ := cmdDecodeImage_reach lib env2 out (EncodeToString h) size h cfg
      hout (hround h).1 hcfg
    obtain ⟨t2, h2, _, _⟩ := cmdDecodeImage_reach lib env2 out (EncodeToString h ++ [10]) size h
      cfg hout (hround h).2 hcfg
    rw [h1, h2]
    exact ⟨rfl, rfl⟩

end Thumbhash
